import Mathlib

/-!
Verification of the mdnfo document index + navigation engine (main.go).

Shallow embedding conventions:
* Go strings are modelled as `List Char` (Go iterates runes in every function
  modelled here; byte positions are only used to count `'\n'` characters
  before a rune-aligned match, which is the same count over runes).
* Go `int` is modelled as `Int`; Go `/` and `%` truncate toward zero, so they
  are `Int.tdiv` and `Int.tmod`.
* The heading and link regular expressions are embedded as deterministic
  scanners that implement the leftmost-first matching of Go's regexp package
  for these two concrete patterns (greedy counted repetition with
  backtracking collapses to `takeWhile`/`dropWhile` runs, as explained at the
  definitions).
* The one floating-point value (the progress ratio) is modelled as an exact
  rational; at every point a claim tests (offset 0, integer denominator
  default) the IEEE double computed by the code is exact, so the models agree
  there.
-/

/-- Character class of the regexp escape `\s` in Go's regexp package:
`[\t\n\f\r ]` (code points 9, 10, 12, 13, 32; vertical tab is excluded). -/
def isWS (c : Char) : Bool :=
  c == ' ' || c == '\t' || c == '\n' || c == '\r' || c.toNat == 12

/-- Go `unicode.IsSpace` (used by `strings.TrimSpace` and `strings.Fields`):
`\t \n \v \f \r space U+0085 U+00A0` plus the Unicode `White_Space` code
points. -/
def goIsSpace (c : Char) : Bool :=
  let n := c.toNat
  (9 ≤ n && n ≤ 13) || n == 32 || n == 0x85 || n == 0xA0 || n == 0x1680 ||
    (0x2000 ≤ n && n ≤ 0x200A) || n == 0x2028 || n == 0x2029 ||
    n == 0x202F || n == 0x205F || n == 0x3000

/-- Per-rune `unicode.ToLower` as used by `strings.ToLower` in `slugify`.
ASCII letters are lowered; `U+0130` and `U+212A` are the only two non-ASCII
code points whose Go lowercase lands in ASCII (`i` and `k`), so outside this
mapping Go's lowercase of a non-ASCII rune is again non-ASCII and is removed
by the `slugify` filter; the model therefore agrees with Go on `slugify` for
every input. -/
def lowerChar (c : Char) : Char :=
  if 'A' ≤ c ∧ c ≤ 'Z' then Char.ofNat (c.toNat + 32)
  else if c.toNat = 0x130 then 'i'
  else if c.toNat = 0x212A then 'k'
  else c

/-- The character filter inside `slugify`:
`(r >= 'a' && r <= 'z') || (r >= '0' && r <= '9') || r == ' ' || r == '-'`. -/
def keepRune (c : Char) : Bool :=
  ('a' ≤ c && c ≤ 'z') || ('0' ≤ c && c ≤ '9') || c == ' ' || c == '-'

/-- `strings.ReplaceAll(s, " ", "-")`: the pattern is a single rune, so this
is a pointwise map. -/
def replaceSpaceHyphen (l : List Char) : List Char :=
  l.map fun c => if c == ' ' then '-' else c

/-- Accumulator loop for `strings.Fields` (split around runs of
`unicode.IsSpace` characters). -/
def fieldsAux : List Char → List Char → List (List Char)
  | acc, [] => if acc = [] then [] else [acc.reverse]
  | acc, c :: r =>
    if goIsSpace c then
      if acc = [] then fieldsAux [] r else acc.reverse :: fieldsAux [] r
    else fieldsAux (c :: acc) r

/-- `strings.Fields`. -/
def goFields (l : List Char) : List (List Char) := fieldsAux [] l

/-- `strings.Join(parts, "-")`. -/
def goJoin : List (List Char) → List Char
  | [] => []
  | [p] => p
  | p :: ps => p ++ '-' :: goJoin ps

/-- `strings.Trim(s, "-")`: remove leading and trailing hyphens. -/
def goTrimH (l : List Char) : List Char :=
  ((l.dropWhile (· == '-')).reverse.dropWhile (· == '-')).reverse

/-- `strings.TrimSpace`. -/
def goTrimSpace (l : List Char) : List Char :=
  ((l.dropWhile goIsSpace).reverse.dropWhile goIsSpace).reverse

/-- `slugify` from main.go: lowercase, keep only `[a-z0-9 -]`, replace each
space by a hyphen, split into fields, rejoin with hyphens, trim hyphens. -/
def slugify (s : List Char) : List Char :=
  goTrimH (goJoin (goFields (replaceSpaceHyphen ((s.map lowerChar).filter keepRune))))

/-- One extracted link record (`type link struct` in main.go). -/
structure link where
  text : List Char
  target : List Char
  renderedLine : Int
deriving DecidableEq, Repr

/-- One extracted heading record (`type heading struct` in main.go). -/
structure heading where
  text : List Char
  anchor : List Char
  renderedLine : Int
deriving DecidableEq, Repr

/-- Count of `"\n"` occurrences, `bytes.Count(b, []byte("\n"))`. -/
def countNL (l : List Char) : Nat := (l.filter (· == '\n')).length

/-- Index of the first occurrence of `nd` in `hay` (`strings.Index`),
`none` when there is none. -/
def firstIdx? (hay nd : List Char) : Option Nat :=
  if nd.isPrefixOf hay then some 0
  else
    match hay with
    | [] => none
    | _ :: t => (firstIdx? t nd).map (· + 1)

/-- `indexLineOf` from main.go: `-1` for an empty or absent needle, otherwise
the number of newline characters before the first occurrence. -/
def indexLineOf (hay nd : List Char) : Int :=
  if nd = [] then -1
  else
    match firstIdx? hay nd with
    | none => -1
    | some p => (countNL (hay.take p) : Int)

/-- Length splits along `takeWhile`/`dropWhile`. -/
theorem length_takeWhile_add_dropWhile (p : Char → Bool) (l : List Char) :
    l.length = (l.takeWhile p).length + (l.dropWhile p).length := by
  rw [← List.length_append, List.takeWhile_append_dropWhile]

/-- Attempt to match the heading regexp `^\s{0,3}#{1,6}\s+(.*)$` (multiline)
at the start of `s`, which must be a line start.  Go's leftmost-first
semantics collapse to this deterministic form: the greedy `\s{0,3}` can only
succeed by consuming the entire leading whitespace run (a shorter attempt
leaves a whitespace character where `#` is required), so a run longer than 3
fails; the greedy `#{1,6}` must consume the entire `#` run (a shorter attempt
leaves `#` where `\s` is required), so a run longer than 6 fails; the greedy
`\s+` and `(.*)` never need backtracking because `(.*)$` always succeeds at
the next newline or at the end.  Note `\s` also matches newlines, so a match
may span lines.  Returns the captured group and the unconsumed suffix. -/
def matchHeadingAt (s : List Char) : Option (List Char × List Char) :=
  let w := s.takeWhile isWS
  let s1 := s.dropWhile isWS
  let hs := s1.takeWhile (· == '#')
  let s2 := s1.dropWhile (· == '#')
  if w.length ≤ 3 ∧ 1 ≤ hs.length ∧ hs.length ≤ 6 ∧ 1 ≤ (s2.takeWhile isWS).length then
    let s3 := s2.dropWhile isWS
    some (s3.takeWhile (· ≠ '\n'), s3.dropWhile (· ≠ '\n'))
  else none

/-- Let-free characterization of `matchHeadingAt`, for rewriting. -/
theorem matchHeadingAt_def (s : List Char) :
    matchHeadingAt s =
      if (s.takeWhile isWS).length ≤ 3 ∧
         1 ≤ ((s.dropWhile isWS).takeWhile (· == '#')).length ∧
         ((s.dropWhile isWS).takeWhile (· == '#')).length ≤ 6 ∧
         1 ≤ (((s.dropWhile isWS).dropWhile (· == '#')).takeWhile isWS).length then
        some ((((s.dropWhile isWS).dropWhile (· == '#')).dropWhile isWS).takeWhile (· ≠ '\n'),
              (((s.dropWhile isWS).dropWhile (· == '#')).dropWhile isWS).dropWhile (· ≠ '\n'))
      else none := rfl

theorem matchHeadingAt_length {s g e : List Char}
    (h : matchHeadingAt s = some (g, e)) : e.length < s.length := by
  rw [matchHeadingAt_def] at h
  split at h
  · next hc =>
    simp only [Option.some.injEq, Prod.mk.injEq] at h
    obtain ⟨-, he⟩ := h
    obtain ⟨-, h2, -, h4⟩ := hc
    have l1 := length_takeWhile_add_dropWhile isWS s
    have l2 := length_takeWhile_add_dropWhile (· == '#') (s.dropWhile isWS)
    have l3 := length_takeWhile_add_dropWhile isWS ((s.dropWhile isWS).dropWhile (· == '#'))
    have l4 := length_takeWhile_add_dropWhile (· ≠ '\n')
      (((s.dropWhile isWS).dropWhile (· == '#')).dropWhile isWS)
    have : e.length = ((((s.dropWhile isWS).dropWhile (· == '#')).dropWhile isWS).dropWhile
        (· ≠ '\n')).length := by rw [← he]
    omega
  · exact absurd h (by simp)

/-- Fuel-driven body of the heading scanner; `scanH` passes the string
length as fuel, which `matchHeadingAt_length` shows is always enough
(`scanHAux_congr`), so the fuel never runs out. -/
def scanHAux : Nat → List Char → Bool → List (List Char)
  | 0, _, _ => []
  | fuel + 1, s, atLS =>
    match s with
    | [] => []
    | c :: rest =>
      if atLS then
        match matchHeadingAt (c :: rest) with
        | some (g, e) => g :: scanHAux fuel e false
        | none => scanHAux fuel rest (c == '\n')
      else scanHAux fuel rest (c == '\n')

/-- `reHeading.FindAllStringSubmatch(raw, -1)`: scan left to right; attempt a
match only at line starts (`atLS` tracks whether the current position is one);
after a match, continue at its end (matches are nonempty).  Returns the list
of captured groups in order. -/
def scanH (s : List Char) (atLS : Bool) : List (List Char) :=
  scanHAux s.length s atLS

theorem scanHAux_congr : ∀ (f1 f2 : Nat) (s : List Char) (b : Bool),
    s.length ≤ f1 → s.length ≤ f2 → scanHAux f1 s b = scanHAux f2 s b := by
  intro f1
  induction f1 with
  | zero =>
    intro f2 s b h1 h2
    have hs : s = [] := by
      cases s with
      | nil => rfl
      | cons c r => simp at h1
    subst hs
    cases f2 <;> rfl
  | succ f ih =>
    intro f2 s b h1 h2
    cases f2 with
    | zero =>
      have hs : s = [] := by
        cases s with
        | nil => rfl
        | cons c r => simp at h2
      subst hs
      rfl
    | succ f2b =>
      cases s with
      | nil => rfl
      | cons c rest =>
        simp only [List.length_cons] at h1 h2
        cases b with
        | false =>
          simp only [scanHAux, Bool.false_eq_true, if_false]
          exact ih f2b rest (c == '\n') (by omega) (by omega)
        | true =>
          simp only [scanHAux, if_true]
          rcases hm : matchHeadingAt (c :: rest) with - | ⟨g, e⟩
          · exact ih f2b rest (c == '\n') (by omega) (by omega)
          · have he := matchHeadingAt_length hm
            simp only [List.length_cons] at he
            show g :: scanHAux f e false = g :: scanHAux f2b e false
            rw [ih f2b e false (by omega) (by omega)]

theorem scanH_nil (b : Bool) : scanH [] b = [] := rfl

theorem scanH_cons_false (c : Char) (r : List Char) :
    scanH (c :: r) false = scanH r (c == '\n') := by
  show scanHAux (r.length + 1) (c :: r) false = scanH r (c == '\n')
  simp only [scanHAux, Bool.false_eq_true, if_false]
  rfl

theorem scanH_cons_true_some {c : Char} {r g e : List Char}
    (hm : matchHeadingAt (c :: r) = some (g, e)) :
    scanH (c :: r) true = g :: scanH e false := by
  show scanHAux (r.length + 1) (c :: r) true = _
  simp only [scanHAux, if_true, hm]
  have he := matchHeadingAt_length hm
  simp only [List.length_cons] at he
  rw [scanHAux_congr r.length e.length e false (by omega) le_rfl]
  rfl

theorem scanH_cons_true_none {c : Char} {r : List Char}
    (hm : matchHeadingAt (c :: r) = none) :
    scanH (c :: r) true = scanH r (c == '\n') := by
  show scanHAux (r.length + 1) (c :: r) true = scanH r (c == '\n')
  simp only [scanHAux, if_true, hm]
  rfl

/-- Attempt to match the link regexp `\[([^\]]+)\]\(([^)]+)\)` at the start
of `s`.  As with the heading pattern, greediness is deterministic here: the
`[^\]]+` run must extend to the next `]` and `[^)]+` to the next `)` (both
nonempty), so backtracking never changes the result.  The head of the
`dropWhile` suffixes is the required literal `]` resp. `)` whenever it
exists.  Returns (display text, destination, unconsumed suffix). -/
def matchLinkAt (s : List Char) : Option (List Char × List Char × List Char) :=
  match s with
  | [] => none
  | c :: r =>
    if c = '[' then
      let t := r.takeWhile (· ≠ ']')
      let r1 := r.dropWhile (· ≠ ']')
      if t = [] ∨ r1 = [] then none
      else if r1.tail.head? = some '(' then
        let r2 := r1.tail.tail
        let d := r2.takeWhile (· ≠ ')')
        let r3 := r2.dropWhile (· ≠ ')')
        if d = [] ∨ r3 = [] then none
        else some (t, d, r3.tail)
      else none
    else none

/-- Let-free characterization of `matchLinkAt` in the interesting case. -/
theorem matchLinkAt_cons (c : Char) (r : List Char) :
    matchLinkAt (c :: r) =
      (if c = '[' then
        if r.takeWhile (· ≠ ']') = [] ∨ r.dropWhile (· ≠ ']') = [] then none
        else if (r.dropWhile (· ≠ ']')).tail.head? = some '(' then
          if ((r.dropWhile (· ≠ ']')).tail.tail).takeWhile (· ≠ ')') = [] ∨
             ((r.dropWhile (· ≠ ']')).tail.tail).dropWhile (· ≠ ')') = [] then none
          else some (r.takeWhile (· ≠ ']'),
                     ((r.dropWhile (· ≠ ']')).tail.tail).takeWhile (· ≠ ')'),
                     (((r.dropWhile (· ≠ ']')).tail.tail).dropWhile (· ≠ ')')).tail)
        else none
      else none) := rfl

theorem matchLinkAt_length {s t d r4 : List Char}
    (h : matchLinkAt s = some (t, d, r4)) : r4.length < s.length := by
  match s with
  | [] => simp [matchLinkAt] at h
  | c :: r =>
    rw [matchLinkAt_cons] at h
    split at h
    · split at h
      · exact absurd h (by simp)
      · split at h
        · split at h
          · exact absurd h (by simp)
          · next hne1 hp hne2 =>
            simp only [Option.some.injEq, Prod.mk.injEq] at h
            obtain ⟨-, -, hr⟩ := h
            subst hr
            have l1 := length_takeWhile_add_dropWhile (· ≠ ']') r
            have l2 := length_takeWhile_add_dropWhile (· ≠ ')') ((r.dropWhile (· ≠ ']')).tail.tail)
            have hr1 : (r.dropWhile (· ≠ ']')) ≠ [] := fun hh => hne1 (Or.inr hh)
            have hr1t : (r.dropWhile (· ≠ ']')).tail ≠ [] := by
              intro hh; rw [hh] at hp; simp at hp
            have hr3 : ((r.dropWhile (· ≠ ']')).tail.tail).dropWhile (· ≠ ')') ≠ [] :=
              fun hh => hne2 (Or.inr hh)
            have e1 : (r.dropWhile (· ≠ ']')).tail.length = (r.dropWhile (· ≠ ']')).length - 1 :=
              List.length_tail _
            have e2 : (r.dropWhile (· ≠ ']')).tail.tail.length =
                (r.dropWhile (· ≠ ']')).tail.length - 1 := List.length_tail _
            have e3 : ((((r.dropWhile (· ≠ ']')).tail.tail).dropWhile (· ≠ ')'))).tail.length =
                ((((r.dropWhile (· ≠ ']')).tail.tail).dropWhile (· ≠ ')'))).length - 1 :=
              List.length_tail _
            have p1 : 1 ≤ (r.dropWhile (· ≠ ']')).length := List.length_pos.mpr hr1
            have p2 : 1 ≤ (r.dropWhile (· ≠ ']')).tail.length := List.length_pos.mpr hr1t
            have p3 : 1 ≤ ((((r.dropWhile (· ≠ ']')).tail.tail).dropWhile (· ≠ ')'))).length :=
              List.length_pos.mpr hr3
            simp only [List.length_cons]
            omega
        · exact absurd h (by simp)
    · exact absurd h (by simp)

/-- Fuel-driven body of the link scanner; as with `scanHAux` the string
length is always enough fuel (`scanLinksAux_congr`). -/
def scanLinksAux : Nat → List Char → List (List Char × List Char)
  | 0, _ => []
  | fuel + 1, s =>
    match s with
    | [] => []
    | c :: rest =>
      match matchLinkAt (c :: rest) with
      | some (t, d, r4) => (t, d) :: scanLinksAux fuel r4
      | none => scanLinksAux fuel rest

/-- `reLink.FindAllStringSubmatchIndex(raw, -1)` driver: leftmost-first,
non-overlapping scan; after a failed attempt advance one rune.  Returns the
(text, dest) pairs in order. -/
def scanLinks (s : List Char) : List (List Char × List Char) :=
  scanLinksAux s.length s

theorem scanLinksAux_congr : ∀ (f1 f2 : Nat) (s : List Char),
    s.length ≤ f1 → s.length ≤ f2 → scanLinksAux f1 s = scanLinksAux f2 s := by
  intro f1
  induction f1 with
  | zero =>
    intro f2 s h1 h2
    have hs : s = [] := by
      cases s with
      | nil => rfl
      | cons c r => simp at h1
    subst hs
    cases f2 <;> rfl
  | succ f ih =>
    intro f2 s h1 h2
    cases f2 with
    | zero =>
      have hs : s = [] := by
        cases s with
        | nil => rfl
        | cons c r => simp at h2
      subst hs
      rfl
    | succ f2b =>
      cases s with
      | nil => rfl
      | cons c rest =>
        simp only [List.length_cons] at h1 h2
        simp only [scanLinksAux]
        rcases hm : matchLinkAt (c :: rest) with - | ⟨t, d, r4⟩
        · exact ih f2b rest (by omega) (by omega)
        · have he := matchLinkAt_length hm
          simp only [List.length_cons] at he
          show (t, d) :: scanLinksAux f r4 = (t, d) :: scanLinksAux f2b r4
          rw [ih f2b r4 (by omega) (by omega)]

/-- The heading part of `buildIndexes`: for each captured group, trim it,
discard blanks, and record text, slug anchor and resolved line.  `plain` is
the ANSI-stripped rendered output (`stripANSI(m.rendered)`), which comes from
the external renderer and is a parameter here. -/
def buildHeadings (raw plain : List Char) : List heading :=
  (scanH raw true).flatMap fun g =>
    if goTrimSpace g = [] then []
    else [{ text := goTrimSpace g, anchor := slugify (goTrimSpace g),
            renderedLine := indexLineOf plain (goTrimSpace g) }]

/-- The link part of `buildIndexes`: needle is the display text for anchor
targets (prefix `#`), the destination otherwise. -/
def buildLinks (raw plain : List Char) : List link :=
  (scanLinks raw).map fun td =>
    { text := td.1, target := td.2,
      renderedLine := indexLineOf plain (if td.2.head? = some '#' then td.1 else td.2) }

/-- Application state relevant to the claims: viewport offset
(`m.view.YOffset`), animation flag and target (`m.animating`,
`m.targetOffset`), and the selected-link index (`m.linkIndex`). -/
structure MSt where
  offset : Int
  animating : Bool
  targetOffset : Int
  linkIndex : Int
deriving DecidableEq, Repr

/-- Go `clamp` from main.go. -/
def clamp (v lo hi : Int) : Int :=
  if v < lo then lo else if v > hi then hi else v

/-- `startScrollTo` from main.go: clamp the target to
`[0, max 0 (totalLines - height)]`; if already there go (or stay) idle,
otherwise start animating (the returned `tea.Cmd` tick is represented by the
`animating` flag). -/
def startScrollTo (T H : Int) (s : MSt) (target : Int) : MSt :=
  let maxOffset := max 0 (T - H)
  let target := if target < 0 then 0 else target
  let target := if target > maxOffset then maxOffset else target
  if s.offset = target then { s with targetOffset := target, animating := false }
  else { s with targetOffset := target, animating := true }

/-- The offset computed by one animation tick (the `diff`/`step`/`newOff`
block of the `scrollTick` case): move by `diff / 5` (truncated toward zero),
replaced by `sign diff` when that is `0`, then clamped so it does not pass
the target in the direction of travel. -/
def tickNewOff (cur tgt : Int) : Int :=
  if (tgt - cur > 0 ∧ cur + (if Int.tdiv (tgt - cur) 5 = 0 then (if tgt - cur > 0 then 1 else -1) else Int.tdiv (tgt - cur) 5) > tgt) ∨
     (tgt - cur < 0 ∧ cur + (if Int.tdiv (tgt - cur) 5 = 0 then (if tgt - cur > 0 then 1 else -1) else Int.tdiv (tgt - cur) 5) < tgt)
  then tgt
  else cur + (if Int.tdiv (tgt - cur) 5 = 0 then (if tgt - cur > 0 then 1 else -1) else Int.tdiv (tgt - cur) 5)

/-- The `scrollTick` case of `model.Update`: no-op when idle; otherwise move
the offset by `tickNewOff`; stop animating when the target is reached.
(`viewport.SetYOffset` itself also clamps to the content bounds; for the
in-range offsets produced here that clamp is the identity, so it is not
repeated.) -/
def scrollTickStep (s : MSt) : MSt :=
  if !s.animating then s
  else if s.offset = s.targetOffset then { s with animating := false }
  else
    let newOff := tickNewOff s.offset s.targetOffset
    { s with offset := newOff, animating := newOff ≠ s.targetOffset }

/-- `scrollToLink` from main.go: no-op unless the selected index is in range
and its `renderedLine` resolved; otherwise jump (directly) to the line minus
half the height, clamped into the legal offset range.  Returns the new
offset. -/
def scrollToLink (links : List link) (idx : Int) (T H : Int) (offset : Int) : Int :=
  if idx < 0 ∨ idx ≥ (links.length : Int) then offset
  else
    let line := (links.getD idx.toNat ⟨[], [], -1⟩).renderedLine
    if line < 0 then offset
    else
      let target := line - Int.tdiv H 2
      let target := if target < 0 then 0 else target
      let target := if target > T - H then T - H else target
      let target := if target < 0 then 0 else target
      target

/-- The three-strategy anchor match from the `followLink` loop, combined with
the loop's `renderedLine >= 0` filter: the loop jumps at the first heading
that matches one of the strategies and has a resolved line, and skips
matching headings whose line is unresolved. -/
def findAnchorHeading (headings : List heading) (anc : List Char) : Option heading :=
  headings.find? fun h =>
    (h.anchor == anc || slugify h.text == anc || slugify anc == h.anchor) &&
      decide (0 ≤ h.renderedLine)

/-- `followLink` from main.go.  Returns the new offset and the list of URLs
handed to `openURL` (the fire-and-forget external opener). -/
def followLink (headings : List heading) (T H : Int) (offset : Int) (l : link) :
    Int × List (List Char) :=
  let dest := goTrimSpace l.target
  if dest = [] then (offset, [])
  else if dest.head? = some '#' then
    let anc := dest.tail
    match findAnchorHeading headings anc with
    | some h => (clamp h.renderedLine 0 (max 0 (T - H)), [])
    | none =>
      if 0 ≤ l.renderedLine then (clamp l.renderedLine 0 (max 0 (T - H)), [])
      else (offset, [])
  else (offset, [dest])

/-- The `KeyTab` index update: first `Tab` selects 0, then cycle forward
modulo the link count (Go `%` on these nonnegative operands is `Int.tmod`);
no-op when there are no links. -/
def selectNext (idx : Int) (n : Nat) : Int :=
  if 0 < n then (if idx = -1 then 0 else Int.tmod (idx + 1) n) else idx

/-- The `KeyShiftTab` index update: first `Shift+Tab` selects the last index,
then cycle backward modulo the link count; no-op when there are no links. -/
def selectPrev (idx : Int) (n : Nat) : Int :=
  if 0 < n then (if idx = -1 then (n : Int) - 1 else Int.tmod (idx - 1 + n) n) else idx

/-- The `linkIndex` adjustment at the end of `buildIndexes`: reset to `-1`
when the rebuilt link list is empty, clamp to the last index when it got
shorter. -/
def rebuildIndex (idx : Int) (n : Nat) : Int :=
  if n = 0 then -1 else if idx ≥ (n : Int) then (n : Int) - 1 else idx

/-- The operations of claim C2: animated scroll requests, animation ticks,
link cycling with its centering jump, and following the selected link. -/
inductive MOp where
  | scrollReq (t : Int)
  | tick
  | selNext
  | selPrev
  | follow
deriving DecidableEq, Repr

/-- One event-loop transition for each C2 operation, against a fixed render
(`T` total lines, `H` viewport height, link and heading indexes). -/
def applyOp (T H : Int) (links : List link) (headings : List heading)
    (s : MSt) : MOp → MSt
  | .scrollReq t => startScrollTo T H s t
  | .tick => scrollTickStep s
  | .selNext =>
    if 0 < links.length then
      let i := selectNext s.linkIndex links.length
      { s with linkIndex := i, offset := scrollToLink links i T H s.offset }
    else s
  | .selPrev =>
    if 0 < links.length then
      let i := selectPrev s.linkIndex links.length
      { s with linkIndex := i, offset := scrollToLink links i T H s.offset }
    else s
  | .follow =>
    if 0 ≤ s.linkIndex ∧ s.linkIndex < (links.length : Int) then
      { s with offset :=
          (followLink headings T H s.offset (links.getD s.linkIndex.toNat ⟨[], [], -1⟩)).1 }
    else s

/-- Folding a sequence of C2 operations. -/
def execOps (T H : Int) (links : List link) (headings : List heading)
    (s : MSt) (ops : List MOp) : MSt :=
  ops.foldl (applyOp T H links headings) s

/-- The offset/target invariant of the scroll engine. -/
def ScrollInv (T H : Int) (s : MSt) : Prop :=
  0 ≤ s.offset ∧ s.offset ≤ max 0 (T - H) ∧
  0 ≤ s.targetOffset ∧ s.targetOffset ≤ max 0 (T - H)

instance (T H : Int) (s : MSt) : Decidable (ScrollInv T H s) := by
  unfold ScrollInv; infer_instance

/-- Iterate a function `n` times (used for animation ticks and link
cycling). -/
def iter (f : α → α) : Nat → α → α
  | 0, a => a
  | n + 1, a => iter f n (f a)

/-- The operations of claim C10, which additionally include index rebuilds
(`buildIndexes` after a re-render) that may change the link count. -/
inductive LOp where
  | tab
  | stab
  | enter
  | rebuild (n : Nat)
deriving DecidableEq, Repr

/-- Selected-link index transitions for C10, on (linkIndex, link count). -/
def applyLOp : Int × Nat → LOp → Int × Nat
  | (idx, n), .tab => (selectNext idx n, n)
  | (idx, n), .stab => (selectPrev idx n, n)
  | (idx, n), .enter => (idx, n)
  | (idx, n), .rebuild m => (rebuildIndex idx m, m)

/-- Decimal digit character. -/
def digitChar (n : Nat) : Char := Char.ofNat (48 + n)

/-- Fuel-driven decimal rendering of a natural number (the fuel is an upper
bound on the digit count, so it never runs out). -/
def natReprAux : Nat → Nat → List Char
  | 0, _ => []
  | fuel + 1, n => if n < 10 then [digitChar n] else natReprAux fuel (n / 10) ++ [digitChar (n % 10)]

/-- Decimal rendering of a natural number. -/
def natRepr (n : Nat) : List Char := natReprAux (n + 1) n

/-- `fmt.Sprintf("%d", i)`. -/
def intRepr (i : Int) : List Char :=
  if i < 0 then '-' :: natRepr i.natAbs else natRepr i.toNat

/-- The `current` computation in `model.View`: last visible line, capped at
the total, floored at 1 for nonempty documents. -/
def currentLine (T H off : Int) : Int :=
  let current := off + H
  let current := if current > T then T else current
  if current < 1 ∧ T > 0 then 1 else current

/-- The `total` shown in the footer label: `max(1, m.totalLines)`. -/
def totalDisp (T : Int) : Int := max 1 T

/-- The progress ratio in `model.View`, modelled exactly over `ℚ`: the
integer denominator `max(1, totalLines-height)` is always positive, so the
`den > 0` guard always takes the division branch; the quotient is clamped to
`[0, 1]`.  (In Go this is an IEEE double; at the points the claims test —
offset 0 — the double is exactly `0`, agreeing with the rational.) -/
def ratioQ (T H off : Int) : ℚ :=
  let den : Int := max 1 (T - H)
  let r : ℚ := (off : ℚ) / (den : ℚ)
  let r := if r < 0 then 0 else r
  if r > 1 then 1 else r

/-- The footer label `fmt.Sprintf(" %d / %d ", current, total)`. -/
def labelOf (T H off : Int) : List Char :=
  [' '] ++ intRepr (currentLine T H off) ++ [' ', '/', ' '] ++ intRepr (totalDisp T) ++ [' ']

/-- The label-overlay loop in `drawProgressBar`: replace characters of the
first list by those of the second while both last. -/
def overlayFrom : List Char → List Char → List Char
  | bs, [] => bs
  | [], _ => []
  | _ :: bs, l :: ls => l :: overlayFrom bs ls

/-- `drawProgressBar` from main.go.  `int(float64(width) * ratio)` truncates
toward zero; for nonnegative products that is the floor, and for negative
products both truncation and floor are then clamped up to `0`, so the floor
model gives the same bar.  The label is ASCII here, so Go's byte length
equals the rune count. -/
def drawProgressBar (width : Nat) (ratio : ℚ) (label : List Char) : List Char :=
  if width < 3 then List.replicate width '█'
  else
    let fill : Int := Int.floor ((width : ℚ) * ratio)
    let fill := if fill < 0 then 0 else if fill > (width : Int) then (width : Int) else fill
    let fillN := fill.toNat
    let bar := List.replicate fillN '█' ++ List.replicate (width - fillN) '░'
    if 0 < label.length ∧ label.length < width then
      let start := (width - label.length) / 2
      bar.take start ++ overlayFrom (bar.drop start) label
    else bar

/-- The footer line assembled by `model.View` (progress bar with centered
`current / total` label). -/
def footerBar (T H off : Int) (w : Nat) : List Char :=
  drawProgressBar w (ratioQ T H off) (labelOf T H off)

/-- Example heading of claim C3: `anchor = "intro"`,
`displayText = "Introduction"`, with a resolved rendered line. -/
def introH : heading :=
  { text := "Introduction".toList, anchor := "intro".toList, renderedLine := 3 }

/-! Generic list helpers used throughout the proofs. -/

theorem takeWhile_append_stop {p : Char → Bool} {l : List Char} (t : List Char)
    (h : l.dropWhile p ≠ []) : (l ++ t).takeWhile p = l.takeWhile p := by
  induction l with
  | nil => simp at h
  | cons c r ih =>
    by_cases hc : p c
    · rw [List.dropWhile_cons_of_pos hc] at h
      simp only [List.cons_append, List.takeWhile_cons, hc, if_true, ih h]
    · simp [List.takeWhile_cons, hc]

theorem dropWhile_append_stop {p : Char → Bool} {l : List Char} (t : List Char)
    (h : l.dropWhile p ≠ []) : (l ++ t).dropWhile p = l.dropWhile p ++ t := by
  induction l with
  | nil => simp at h
  | cons c r ih =>
    by_cases hc : p c
    · rw [List.dropWhile_cons_of_pos hc] at h
      simp only [List.cons_append, List.dropWhile_cons, hc, if_true, ih h,
        List.dropWhile_cons_of_pos]
    · simp [List.dropWhile_cons, hc]

theorem takeWhile_append_all {p : Char → Bool} {l : List Char} (t : List Char)
    (h : ∀ c ∈ l, p c) : (l ++ t).takeWhile p = l ++ t.takeWhile p := by
  induction l with
  | nil => simp
  | cons c r ih =>
    have hc : p c := h c (by simp)
    simp only [List.cons_append, List.takeWhile_cons, hc, if_true]
    rw [ih fun x hx => h x (by simp [hx])]

theorem dropWhile_append_all {p : Char → Bool} {l : List Char} (t : List Char)
    (h : ∀ c ∈ l, p c) : (l ++ t).dropWhile p = t.dropWhile p := by
  induction l with
  | nil => simp
  | cons c r ih =>
    have hc : p c := h c (by simp)
    simp only [List.cons_append, List.dropWhile_cons, hc, if_true]
    exact ih fun x hx => h x (by simp [hx])

theorem dropWhile_head_false {p : Char → Bool} {l r : List Char} {c : Char}
    (h : l.dropWhile p = c :: r) : p c = false := by
  induction l with
  | nil => simp at h
  | cons a l' ih =>
    by_cases ha : p a
    · rw [List.dropWhile_cons_of_pos ha] at h; exact ih h
    · rw [List.dropWhile_cons_of_neg ha] at h
      cases h; simpa using ha

theorem takeWhile_mem {p : Char → Bool} {l : List Char} :
    ∀ c ∈ l.takeWhile p, p c := fun _ hc => List.mem_takeWhile_imp hc

/-! Arithmetic facts about one animation tick. -/

theorem tdiv_five_nonneg {d : Int} (h : 0 < d) : 0 ≤ Int.tdiv d 5 :=
  Int.tdiv_nonneg (le_of_lt h) (by norm_num)

theorem tdiv_five_nonpos {d : Int} (h : d < 0) : Int.tdiv d 5 ≤ 0 := by
  have h1 : 0 ≤ Int.tdiv (-d) 5 := Int.tdiv_nonneg (by omega) (by norm_num)
  have h2 : Int.tdiv (-d) 5 = -Int.tdiv d 5 := Int.neg_tdiv d 5
  omega

/-- One tick moves the offset strictly toward the target and never past it. -/
theorem tickNewOff_progress (cur tgt : Int) (h : cur ≠ tgt) :
    (tgt - tickNewOff cur tgt).natAbs < (tgt - cur).natAbs ∧
    min cur tgt ≤ tickNewOff cur tgt ∧ tickNewOff cur tgt ≤ max cur tgt := by
  have h0 : 0 < tgt - cur → 0 ≤ Int.tdiv (tgt - cur) 5 := fun hh => tdiv_five_nonneg hh
  have h1 : tgt - cur < 0 → Int.tdiv (tgt - cur) 5 ≤ 0 := fun hh => tdiv_five_nonpos hh
  unfold tickNewOff
  generalize Int.tdiv (tgt - cur) 5 = q at h0 h1 ⊢
  split_ifs <;> omega

/-- On an animating, off-target state `scrollTickStep` is exactly the
`tickNewOff` move, with the flag recomputed. -/
theorem scrollTickStep_eq_of (t : MSt) (h1 : t.animating = true)
    (h2 : t.offset ≠ t.targetOffset) :
    scrollTickStep t =
      { t with offset := tickNewOff t.offset t.targetOffset,
               animating := decide (tickNewOff t.offset t.targetOffset ≠ t.targetOffset) } := by
  unfold scrollTickStep
  rw [h1]
  simp only [Bool.not_true, Bool.false_eq_true, if_false, if_neg h2]

/-- An idle state is a fixed point of the tick handler. -/
theorem scrollTickStep_idle (t : MSt) (h : t.animating = false) :
    scrollTickStep t = t := by
  unfold scrollTickStep
  rw [h]
  simp

/-- An animating state already at its target only clears the flag. -/
theorem scrollTickStep_at_target (t : MSt) (h1 : t.animating = true)
    (h2 : t.offset = t.targetOffset) :
    scrollTickStep t = { t with animating := false } := by
  unfold scrollTickStep
  rw [h1]
  simp [h2]

/-- Idle states are fixed points of any number of ticks. -/
theorem iter_tick_idle (m : Nat) (t : MSt) (h : t.animating = false) :
    iter scrollTickStep m t = t := by
  induction m with
  | zero => rfl
  | succ k ih => rw [iter, scrollTickStep_idle t h]; exact ih

/-- Enough ticks drive an animating state exactly onto its target and clear
the flag; `|targetOffset - offset|` ticks always suffice. -/
theorem iter_tick_reaches (n : Nat) : ∀ s : MSt, s.animating = true →
    (s.targetOffset - s.offset).natAbs ≤ n → 1 ≤ n →
    (iter scrollTickStep n s).offset = s.targetOffset ∧
    (iter scrollTickStep n s).animating = false ∧
    (iter scrollTickStep n s).targetOffset = s.targetOffset := by
  induction n with
  | zero => intro s _ _ h3; omega
  | succ k ih =>
    intro s h1 h2 _
    by_cases heq : s.offset = s.targetOffset
    · rw [iter, scrollTickStep_at_target s h1 heq,
        iter_tick_idle k { s with animating := false } rfl]
      exact ⟨heq, rfl, rfl⟩
    · have heqq := scrollTickStep_eq_of s h1 heq
      have hp := tickNewOff_progress s.offset s.targetOffset heq
      by_cases hdone : tickNewOff s.offset s.targetOffset = s.targetOffset
      · rw [iter, heqq]
        have hanim : (decide (tickNewOff s.offset s.targetOffset ≠ s.targetOffset)) = false := by
          simp [hdone]
        rw [hanim, iter_tick_idle k _ rfl]
        exact ⟨hdone, rfl, rfl⟩
      · have hanim : (decide (tickNewOff s.offset s.targetOffset ≠ s.targetOffset)) = true := by
          simp [hdone]
        have hlt : (s.targetOffset - tickNewOff s.offset s.targetOffset).natAbs ≤ k := by
          omega
      -- the next state still animates and is strictly closer
        have hone : 1 ≤ k := by
          have : (s.targetOffset - tickNewOff s.offset s.targetOffset).natAbs ≠ 0 := by
            intro hz
            exact hdone (by omega)
          omega
        have := ih { s with offset := tickNewOff s.offset s.targetOffset,
                            animating := decide (tickNewOff s.offset s.targetOffset ≠ s.targetOffset) }
          (by simpa using hanim) (by simpa using hlt) hone
        rw [iter, heqq]
        simpa using this

/-- C1: while animating, each tick computes `diff = targetOffset - offset`
and a step of `diff / 5` (integer division truncating toward zero), replaced
by `sign diff` (±1) when that quotient is 0; the new offset is
`offset + step`, clamped so it never passes `targetOffset` in the direction
of travel; consequently, for every starting offset and every target,
repeated tick application reaches exactly `targetOffset` within
`|targetOffset - offset|` ticks, monotonically (no oscillation, no
overshoot), at which point `animating` becomes false. -/
theorem scroll_tick_termination (s : MSt) (n : Nat)
    (h1 : s.animating = true)
    (h2 : (s.targetOffset - s.offset).natAbs ≤ n) (h3 : 1 ≤ n) :
    (iter scrollTickStep n s).offset = s.targetOffset ∧
    (iter scrollTickStep n s).animating = false ∧
    (iter scrollTickStep n s).targetOffset = s.targetOffset ∧
    (∀ t : MSt, t.animating = true → t.offset ≠ t.targetOffset →
      (scrollTickStep t).offset = tickNewOff t.offset t.targetOffset ∧
      (t.targetOffset - (scrollTickStep t).offset).natAbs <
        (t.targetOffset - t.offset).natAbs ∧
      min t.offset t.targetOffset ≤ (scrollTickStep t).offset ∧
      (scrollTickStep t).offset ≤ max t.offset t.targetOffset) := by
  obtain ⟨ha, hb, hc⟩ := iter_tick_reaches n s h1 h2 h3
  refine ⟨ha, hb, hc, fun t ht1 ht2 => ?_⟩
  have he := scrollTickStep_eq_of t ht1 ht2
  have hp := tickNewOff_progress t.offset t.targetOffset ht2
  rw [he]
  exact ⟨rfl, hp.1, hp.2.1, hp.2.2⟩

/-- Witness for C1 at a concrete animating state (offset 0, target 7, 7
ticks). -/
theorem scroll_tick_termination_witness :
    (MSt.animating ⟨0, true, 7, -1⟩ = true ∧
     ((7 : Int) - 0).natAbs ≤ 7 ∧ 1 ≤ 7) ∧
    (iter scrollTickStep 7 ⟨0, true, 7, -1⟩).offset = 7 :=
  ⟨⟨rfl, by decide, by decide⟩,
    (scroll_tick_termination ⟨0, true, 7, -1⟩ 7 rfl (by decide) (by decide)).1⟩

/-- Go `clamp` stays within its bounds when they are ordered. -/
theorem clamp_bounds {v lo hi : Int} (h : lo ≤ hi) :
    lo ≤ clamp v lo hi ∧ clamp v lo hi ≤ hi := by
  unfold clamp
  split_ifs <;> omega

/-- `startScrollTo` keeps the offset unchanged. -/
theorem startScrollTo_offset (T H : Int) (s : MSt) (t : Int) :
    (startScrollTo T H s t).offset = s.offset := by
  simp only [startScrollTo, apply_ite MSt.offset, ite_self]

/-- `startScrollTo` keeps the link index unchanged. -/
theorem startScrollTo_linkIndex (T H : Int) (s : MSt) (t : Int) :
    (startScrollTo T H s t).linkIndex = s.linkIndex := by
  simp only [startScrollTo, apply_ite MSt.linkIndex, ite_self]

/-- `startScrollTo` clamps the target into the legal range. -/
theorem startScrollTo_target (T H : Int) (s : MSt) (t : Int) :
    0 ≤ (startScrollTo T H s t).targetOffset ∧
    (startScrollTo T H s t).targetOffset ≤ max 0 (T - H) := by
  simp only [startScrollTo, apply_ite MSt.targetOffset, ite_self]
  split_ifs <;> omega

/-- `startScrollTo` preserves the invariant. -/
theorem startScrollTo_inv (T H : Int) (s : MSt) (t : Int) (h : ScrollInv T H s) :
    ScrollInv T H (startScrollTo T H s t) := by
  obtain ⟨h1, h2, h3, h4⟩ := h
  obtain ⟨g1, g2⟩ := startScrollTo_target T H s t
  exact ⟨by rw [startScrollTo_offset]; exact h1,
         by rw [startScrollTo_offset]; exact h2, g1, g2⟩

/-- `scrollToLink` either leaves the offset alone or lands inside
`[0, max 0 (T - H)]`. -/
theorem scrollToLink_range (links : List link) (idx T H off : Int) :
    scrollToLink links idx T H off = off ∨
    (0 ≤ scrollToLink links idx T H off ∧
     scrollToLink links idx T H off ≤ max 0 (T - H)) := by
  simp only [scrollToLink]
  split_ifs <;> first
    | (left; rfl)
    | (right; constructor <;> omega)

/-- The offset returned by `followLink` is either unchanged or inside
`[0, max 0 (T - H)]`. -/
theorem followLink_range (headings : List heading) (T H off : Int) (l : link) :
    (followLink headings T H off l).1 = off ∨
    (0 ≤ (followLink headings T H off l).1 ∧
     (followLink headings T H off l).1 ≤ max 0 (T - H)) := by
  have hmax : (0 : Int) ≤ max 0 (T - H) := le_max_left _ _
  simp only [followLink]
  by_cases hdest : goTrimSpace l.target = []
  · rw [if_pos hdest]; left; rfl
  · rw [if_neg hdest]
    by_cases hhash : (goTrimSpace l.target).head? = some '#'
    · rw [if_pos hhash]
      rcases hf : findAnchorHeading headings (goTrimSpace l.target).tail with - | h
      · simp only [hf]
        by_cases hres : 0 ≤ l.renderedLine
        · rw [if_pos hres]; right; exact clamp_bounds hmax
        · rw [if_neg hres]; left; rfl
      · simp only [hf]
        right; exact clamp_bounds hmax
    · rw [if_neg hhash]; left; rfl

/-- One tick preserves the offset/target invariant. -/
theorem scrollTickStep_inv (T H : Int) (s : MSt) (h : ScrollInv T H s) :
    ScrollInv T H (scrollTickStep s) := by
  obtain ⟨h1, h2, h3, h4⟩ := h
  by_cases ha : s.animating = true
  · by_cases he : s.offset = s.targetOffset
    · rw [scrollTickStep_at_target s ha he]
      exact ⟨h1, h2, h3, h4⟩
    · rw [scrollTickStep_eq_of s ha he]
      have hp := tickNewOff_progress s.offset s.targetOffset he
      refine ⟨?_, ?_, h3, h4⟩ <;> simp only [] <;> omega
  · rw [scrollTickStep_idle s (by simpa using ha)]
    exact ⟨h1, h2, h3, h4⟩

/-- Every C2 operation preserves the invariant. -/
theorem applyOp_inv (T H : Int) (L : List link) (HS : List heading)
    (s : MSt) (op : MOp) (h : ScrollInv T H s) :
    ScrollInv T H (applyOp T H L HS s op) := by
  obtain ⟨h1, h2, h3, h4⟩ := h
  cases op with
  | scrollReq t => exact startScrollTo_inv T H s t ⟨h1, h2, h3, h4⟩
  | tick => exact scrollTickStep_inv T H s ⟨h1, h2, h3, h4⟩
  | selNext =>
    simp only [applyOp]
    split_ifs
    · rcases scrollToLink_range L (selectNext s.linkIndex L.length) T H s.offset with
        hr | ⟨hr1, hr2⟩
      · refine ⟨?_, ?_, h3, h4⟩
        · show (0 : Int) ≤ scrollToLink L (selectNext s.linkIndex L.length) T H s.offset
          rw [hr]; exact h1
        · show scrollToLink L (selectNext s.linkIndex L.length) T H s.offset ≤ max 0 (T - H)
          rw [hr]; exact h2
      · exact ⟨hr1, hr2, h3, h4⟩
    · exact ⟨h1, h2, h3, h4⟩
  | selPrev =>
    simp only [applyOp]
    split_ifs
    · rcases scrollToLink_range L (selectPrev s.linkIndex L.length) T H s.offset with
        hr | ⟨hr1, hr2⟩
      · refine ⟨?_, ?_, h3, h4⟩
        · show (0 : Int) ≤ scrollToLink L (selectPrev s.linkIndex L.length) T H s.offset
          rw [hr]; exact h1
        · show scrollToLink L (selectPrev s.linkIndex L.length) T H s.offset ≤ max 0 (T - H)
          rw [hr]; exact h2
      · exact ⟨hr1, hr2, h3, h4⟩
    · exact ⟨h1, h2, h3, h4⟩
  | follow =>
    simp only [applyOp]
    split_ifs
    · rcases followLink_range HS T H s.offset (L.getD s.linkIndex.toNat ⟨[], [], -1⟩) with
        hr | ⟨hr1, hr2⟩
      · refine ⟨?_, ?_, h3, h4⟩
        · show (0 : Int) ≤
            (followLink HS T H s.offset (L.getD s.linkIndex.toNat ⟨[], [], -1⟩)).1
          rw [hr]; exact h1
        · show (followLink HS T H s.offset (L.getD s.linkIndex.toNat ⟨[], [], -1⟩)).1 ≤
            max 0 (T - H)
          rw [hr]; exact h2
      · exact ⟨hr1, hr2, h3, h4⟩
    · exact ⟨h1, h2, h3, h4⟩

/-- Invariant preservation over a whole operation sequence. -/
theorem execOps_inv (T H : Int) (L : List link) (HS : List heading)
    (ops : List MOp) : ∀ s : MSt, ScrollInv T H s →
    ScrollInv T H (execOps T H L HS s ops) := by
  induction ops with
  | nil => intro s h; exact h
  | cons op rest ih =>
    intro s h
    exact ih (applyOp T H L HS s op) (applyOp_inv T H L HS s op h)

/-- C2: for every rendered line count `T` and viewport height `H`, after any
sequence of scroll requests, ticks, link-centering jumps and link follows
from a state satisfying the scroll invariant (the freshly rendered state
`offset = targetOffset = 0` does), the viewport offset stays within
`0 ≤ offset ≤ max 0 (T - H)`. -/
theorem viewport_offset_bound (T H : Int) (L : List link) (HS : List heading)
    (ops : List MOp) (s : MSt) (h : ScrollInv T H s) :
    0 ≤ (execOps T H L HS s ops).offset ∧
    (execOps T H L HS s ops).offset ≤ max 0 (T - H) := by
  obtain ⟨h1, h2, -, -⟩ := execOps_inv T H L HS ops s h
  exact ⟨h1, h2⟩

/-- Witness for C2: a concrete 12-line document in a height-4 viewport, a
scroll request, ticks, link cycling and a follow, from the initial state. -/
theorem viewport_offset_bound_witness :
    ScrollInv 12 4 ⟨0, false, 0, -1⟩ ∧
    (0 ≤ (execOps 12 4 [⟨['a'], ['#', 'a'], 9⟩] [⟨['a'], ['a'], 9⟩]
            ⟨0, false, 0, -1⟩
            [.scrollReq 30, .tick, .tick, .selNext, .follow]).offset ∧
     (execOps 12 4 [⟨['a'], ['#', 'a'], 9⟩] [⟨['a'], ['a'], 9⟩]
            ⟨0, false, 0, -1⟩
            [.scrollReq 30, .tick, .tick, .selNext, .follow]).offset ≤ max 0 (12 - 4)) :=
  ⟨by decide,
    viewport_offset_bound 12 4 [⟨['a'], ['#', 'a'], 9⟩] [⟨['a'], ['a'], 9⟩]
      [.scrollReq 30, .tick, .tick, .selNext, .follow] ⟨0, false, 0, -1⟩ (by decide)⟩

/-- The C10 invariant: the selected index is `-1` or a valid position. -/
def LinkInv (p : Int × Nat) : Prop :=
  p.1 = -1 ∨ (0 ≤ p.1 ∧ p.1 < (p.2 : Int))

instance (p : Int × Nat) : Decidable (LinkInv p) := by
  unfold LinkInv; infer_instance

/-- `selectNext` on a nonnegative in-range index is a plain cyclic
increment. -/
theorem selectNext_of_nonneg (idx : Int) (n : Nat) (h0 : 0 ≤ idx)
    (h1 : idx < (n : Int)) : selectNext idx n = (idx + 1) % (n : Int) := by
  unfold selectNext
  rw [if_pos (by omega : 0 < n), if_neg (by omega : ¬ idx = -1),
    Int.tmod_eq_emod (by omega) (by omega)]

/-- `selectPrev` on a nonnegative in-range index is a plain cyclic
decrement. -/
theorem selectPrev_of_nonneg (idx : Int) (n : Nat) (h0 : 0 ≤ idx)
    (h1 : idx < (n : Int)) : selectPrev idx n = (idx - 1 + n) % (n : Int) := by
  unfold selectPrev
  rw [if_pos (by omega : 0 < n), if_neg (by omega : ¬ idx = -1),
    Int.tmod_eq_emod (by omega) (by omega)]

/-- `selectNext` preserves the index invariant. -/
theorem selectNext_inv (idx : Int) (n : Nat) (h : LinkInv (idx, n)) :
    LinkInv (selectNext idx n, n) := by
  by_cases hn : 0 < n
  · rcases h with h | ⟨h0, h1⟩
    · subst h
      unfold selectNext
      rw [if_pos hn, if_pos rfl]
      right; constructor <;> omega
    · rw [selectNext_of_nonneg idx n h0 h1]
      right
      exact ⟨Int.emod_nonneg _ (by omega), Int.emod_lt_of_pos _ (by omega)⟩
  · unfold selectNext
    rw [if_neg hn]
    exact h

/-- `selectPrev` preserves the index invariant. -/
theorem selectPrev_inv (idx : Int) (n : Nat) (h : LinkInv (idx, n)) :
    LinkInv (selectPrev idx n, n) := by
  by_cases hn : 0 < n
  · rcases h with h | ⟨h0, h1⟩
    · subst h
      unfold selectPrev
      rw [if_pos hn, if_pos rfl]
      right; constructor <;> omega
    · rw [selectPrev_of_nonneg idx n h0 h1]
      right
      exact ⟨Int.emod_nonneg _ (by omega), Int.emod_lt_of_pos _ (by omega)⟩
  · unfold selectPrev
    rw [if_neg hn]
    exact h

/-- The `buildIndexes` clamp restores the index invariant for any new link
count. -/
theorem rebuildIndex_inv (idx : Int) (n m : Nat) (h : LinkInv (idx, n)) :
    LinkInv (rebuildIndex idx m, m) := by
  unfold rebuildIndex LinkInv
  rcases h with h | ⟨h0, h1⟩ <;> subst_vars <;> split_ifs <;> simp_all <;> omega

/-- Each C10 operation preserves the index invariant. -/
theorem applyLOp_inv (p : Int × Nat) (op : LOp) (h : LinkInv p) :
    LinkInv (applyLOp p op) := by
  obtain ⟨idx, n⟩ := p
  cases op with
  | tab => exact selectNext_inv idx n h
  | stab => exact selectPrev_inv idx n h
  | enter => exact h
  | rebuild m => exact rebuildIndex_inv idx n m h

/-- C10: from the initial none-selected state, after any sequence of Tab,
Shift+Tab, Enter and index rebuilds, `linkIndex` is `-1` or in
`[0, linkCount)`; in particular whenever it is nonnegative (the guard of the
Enter handler), the `links[linkIndex]` access position is in bounds. -/
theorem linkIndex_invariant (ops : List LOp) (n0 : Nat) :
    ((ops.foldl applyLOp (-1, n0)).1 = -1 ∨
     (0 ≤ (ops.foldl applyLOp (-1, n0)).1 ∧
      (ops.foldl applyLOp (-1, n0)).1 < ((ops.foldl applyLOp (-1, n0)).2 : Int))) ∧
    (0 ≤ (ops.foldl applyLOp (-1, n0)).1 →
      (ops.foldl applyLOp (-1, n0)).1.toNat < (ops.foldl applyLOp (-1, n0)).2) := by
  have main : ∀ (l : List LOp) (p : Int × Nat), LinkInv p → LinkInv (l.foldl applyLOp p) := by
    intro l
    induction l with
    | nil => intro p h; exact h
    | cons op rest ih =>
      intro p h
      exact ih (applyLOp p op) (applyLOp_inv p op h)
  have h := main ops (-1, n0) (Or.inl rfl)
  rcases h with h | ⟨h0, h1⟩
  · exact ⟨Or.inl h, fun hc => by omega⟩
  · exact ⟨Or.inr ⟨h0, h1⟩, fun _ => by omega⟩

/-- Witness for C10 at a concrete operation sequence (rebuild to two links,
cycle past the end, rebuild to one). -/
theorem linkIndex_invariant_witness :
    (([LOp.rebuild 2, LOp.tab, LOp.tab, LOp.tab, LOp.rebuild 1, LOp.enter].foldl
        applyLOp (-1, 5)).1 = -1 ∨
     (0 ≤ ([LOp.rebuild 2, LOp.tab, LOp.tab, LOp.tab, LOp.rebuild 1, LOp.enter].foldl
        applyLOp (-1, 5)).1 ∧
      ([LOp.rebuild 2, LOp.tab, LOp.tab, LOp.tab, LOp.rebuild 1, LOp.enter].foldl
        applyLOp (-1, 5)).1 <
       (([LOp.rebuild 2, LOp.tab, LOp.tab, LOp.tab, LOp.rebuild 1, LOp.enter].foldl
        applyLOp (-1, 5)).2 : Int))) :=
  (linkIndex_invariant [LOp.rebuild 2, LOp.tab, LOp.tab, LOp.tab, LOp.rebuild 1, LOp.enter] 5).1

/-- Stepping the cyclic successor from an in-range index `k` times lands on
`(start + k) mod n`. -/
theorem iter_selectNext_from (n : Nat) (hn : 0 < n) :
    ∀ (k : Nat) (j : Int), 0 ≤ j → j < (n : Int) →
      iter (fun i => selectNext i n) k j = (j + k) % (n : Int) := by
  intro k
  induction k with
  | zero =>
    intro j h0 h1
    simp [iter, Int.emod_eq_of_lt h0 h1]
  | succ m ih =>
    intro j h0 h1
    have hstep : selectNext j n = (j + 1) % (n : Int) := selectNext_of_nonneg j n h0 h1
    have hrange0 : 0 ≤ (j + 1) % (n : Int) := Int.emod_nonneg _ (by omega)
    have hrange1 : (j + 1) % (n : Int) < (n : Int) := Int.emod_lt_of_pos _ (by omega)
    show iter (fun i => selectNext i n) m (selectNext j n) = (j + (m + 1 : Nat)) % (n : Int)
    rw [hstep, ih _ hrange0 hrange1, Int.add_emod ((j + 1) % (n : Int)) m,
      Int.emod_emod_of_dvd _ dvd_rfl, ← Int.add_emod]
    congr 1
    push_cast
    ring

/-- C6 counterexample: with 2 links, two consecutive `SelectNext` calls from
the none-selected state end at index 1, not back at index 0 as the claim
states (`N` calls from none land on `N - 1`; it takes `N + 1` to return to
0). -/
theorem link_cycling_counterexample :
    iter (fun i => selectNext i 2) 2 (-1) = 1 ∧ (1 : Int) ≠ 0 := by decide

/-- C6 (amended): with an empty link list both selections are no-ops; from
the none-selected state `SelectNext` selects 0 and `SelectPrevious` selects
`N - 1`; from a selected index they advance/retreat circularly modulo `N`;
and `N` consecutive `SelectNext` calls from the none-selected state land on
index `N - 1`, with the `N + 1`-st returning to index 0. -/
theorem link_cycling_amended :
    (∀ idx : Int, selectNext idx 0 = idx ∧ selectPrev idx 0 = idx) ∧
    (∀ n : Nat, 0 < n → selectNext (-1) n = 0 ∧ selectPrev (-1) n = (n : Int) - 1) ∧
    (∀ (idx : Int) (n : Nat), 0 ≤ idx → idx < (n : Int) →
      selectNext idx n = (idx + 1) % (n : Int) ∧
      selectPrev idx n = (idx - 1 + n) % (n : Int)) ∧
    (∀ n : Nat, 0 < n →
      iter (fun i => selectNext i n) n (-1) = (n : Int) - 1 ∧
      iter (fun i => selectNext i n) (n + 1) (-1) = 0) := by
  refine ⟨fun idx => ⟨by simp [selectNext], by simp [selectPrev]⟩,
          fun n hn => ⟨by simp [selectNext, hn], by simp [selectPrev, hn]⟩,
          fun idx n h0 h1 =>
            ⟨selectNext_of_nonneg idx n h0 h1, selectPrev_of_nonneg idx n h0 h1⟩,
          fun n hn => ?_⟩
  obtain ⟨m, rfl⟩ : ∃ m, n = m + 1 := ⟨n - 1, by omega⟩
  have hfirst : selectNext (-1) (m + 1) = 0 := by simp [selectNext]
  constructor
  · show iter (fun i => selectNext i (m + 1)) m (selectNext (-1) (m + 1)) = ((m : Int) + 1) - 1
    rw [hfirst, iter_selectNext_from (m + 1) hn m 0 le_rfl (by omega)]
    rw [Int.emod_eq_of_lt (by omega) (by push_cast; omega)]
    push_cast
    ring
  · show iter (fun i => selectNext i (m + 1)) (m + 1) (selectNext (-1) (m + 1)) = 0
    rw [hfirst, iter_selectNext_from (m + 1) hn (m + 1) 0 le_rfl (by omega)]
    have : ((0 : Int) + ((m : Nat) + 1 : Nat)) = ((m : Nat) + 1 : Nat) := by push_cast; ring
    rw [this]
    exact Int.emod_self

/-- Witness for C6 (amended) at `N = 3`. -/
theorem link_cycling_amended_witness :
    0 < 3 ∧
    (iter (fun i => selectNext i 3) 3 (-1) = (3 : Int) - 1 ∧
     iter (fun i => selectNext i 3) (3 + 1) (-1) = 0) :=
  ⟨by decide, link_cycling_amended.2.2.2 3 (by decide)⟩

/-- `List.find?` returns the first element satisfying the predicate: the
list splits so that everything before the hit fails the predicate. -/
theorem find?_first {α : Type} (p : α → Bool) (l : List α) (a : α)
    (h : l.find? p = some a) :
    ∃ pre post, l = pre ++ a :: post ∧ p a = true ∧ ∀ x ∈ pre, p x = false := by
  induction l with
  | nil => simp at h
  | cons b r ih =>
    by_cases hb : p b
    · rw [List.find?_cons_of_pos _ hb] at h
      cases h
      exact ⟨[], r, rfl, hb, by simp⟩
    · rw [List.find?_cons_of_neg _ (by simpa using hb)] at h
      obtain ⟨pre, post, heq, hpa, hpre⟩ := ih h
      refine ⟨b :: pre, post, by rw [heq]; rfl, hpa, ?_⟩
      intro x hx
      rcases List.mem_cons.mp hx with rfl | hx
      · simpa using hb
      · exact hpre x hx

/-- C3 counterexample: for the claim's heading (`anchor = "intro"`,
`displayText = "Introduction"`), the link target `#Introduction` matches no
strategy — the anchor comparison is case-sensitive and
`slugify "Introduction" = "introduction"` differs from both `"Introduction"`
and `"intro"` — so the search finds nothing and `followLink` does not move
the viewport. -/
theorem anchor_resolution_counterexample :
    findAnchorHeading [introH] "Introduction".toList = none ∧
    followLink [introH] 30 10 5 ⟨"x".toList, "#Introduction".toList, -1⟩ = (5, []) := by
  decide

/-- C3 (amended): for a selected link whose target begins with `#`, after
stripping the `#` the Headings list is searched in order for the first
heading with a resolved position whose `anchor` exactly equals the stripped
text, or whose slugified `displayText` equals it, or whose `anchor` equals
the slugified stripped text (first such heading wins; matching headings with
unresolved positions are skipped); given a Heading with `anchor = "intro"`
and `displayText = "Introduction"`, the targets `#intro` and `#INTRO`
resolve to that heading (`#Introduction` does not). -/
theorem anchor_resolution_amended :
    (∀ (hs : List heading) (anc : List Char) (h : heading),
       findAnchorHeading hs anc = some h →
       (h.anchor = anc ∨ slugify h.text = anc ∨ slugify anc = h.anchor) ∧
       0 ≤ h.renderedLine ∧
       ∃ pre post, hs = pre ++ h :: post ∧
         ∀ h2 ∈ pre,
           ¬((h2.anchor = anc ∨ slugify h2.text = anc ∨ slugify anc = h2.anchor) ∧
             0 ≤ h2.renderedLine)) ∧
    findAnchorHeading [introH] "intro".toList = some introH ∧
    findAnchorHeading [introH] "INTRO".toList = some introH ∧
    followLink [introH] 30 10 0 ⟨"x".toList, "#intro".toList, -1⟩ = (3, []) ∧
    followLink [introH] 30 10 0 ⟨"x".toList, "#INTRO".toList, -1⟩ = (3, []) := by
  refine ⟨?_, by decide, by decide, by decide, by decide⟩
  intro hs anc h hfind
  obtain ⟨pre, post, heq, hp, hpre⟩ := find?_first _ hs h hfind
  simp only [Bool.and_eq_true, Bool.or_eq_true, beq_iff_eq, decide_eq_true_eq] at hp
  refine ⟨or_assoc.mp hp.1, hp.2, pre, post, heq, ?_⟩
  intro h2 hmem hcontra
  have hbool : ((h2.anchor == anc || slugify h2.text == anc ||
      slugify anc == h2.anchor) && decide (0 ≤ h2.renderedLine)) = true := by
    simp only [Bool.and_eq_true, Bool.or_eq_true, beq_iff_eq, decide_eq_true_eq]
    exact ⟨or_assoc.mpr hcontra.1, hcontra.2⟩
  rw [hpre h2 hmem] at hbool
  exact absurd hbool (by simp)

/-- Witness for C3 (amended): the first-match characterization applied at
the concrete one-heading list and anchor `"intro"`. -/
theorem anchor_resolution_amended_witness :
    (introH.anchor = "intro".toList ∨ slugify introH.text = "intro".toList ∨
     slugify "intro".toList = introH.anchor) ∧
    0 ≤ introH.renderedLine ∧
    ∃ pre post, [introH] = pre ++ introH :: post ∧
      ∀ h2 ∈ pre,
        ¬((h2.anchor = "intro".toList ∨ slugify h2.text = "intro".toList ∨
           slugify "intro".toList = h2.anchor) ∧ 0 ≤ h2.renderedLine) :=
  anchor_resolution_amended.1 [introH] "intro".toList introH (by decide)

/-- C7: unresolved positions are a quiet fallback.  When the selected link's
`renderedLine` is negative, the selection-change centering jump leaves the
offset unchanged; and when a followed anchor link matches no heading by any
of the three strategies and its own `renderedLine` is unresolved,
`followLink` changes nothing and opens no URL — both functions are total, so
no error or crash is possible. -/
theorem unresolved_positions_quiet (links : List link) (idx T H off : Int)
    (headings : List heading) (l : link) :
    (0 ≤ idx → idx < (links.length : Int) →
      (links.getD idx.toNat ⟨[], [], -1⟩).renderedLine < 0 →
      scrollToLink links idx T H off = off) ∧
    (goTrimSpace l.target ≠ [] → (goTrimSpace l.target).head? = some '#' →
      (∀ h ∈ headings,
        ¬(h.anchor = (goTrimSpace l.target).tail ∨
          slugify h.text = (goTrimSpace l.target).tail ∨
          slugify ((goTrimSpace l.target).tail) = h.anchor)) →
      l.renderedLine < 0 →
      followLink headings T H off l = (off, [])) := by
  constructor
  · intro h0 h1 hline
    simp only [scrollToLink]
    rw [if_neg (by omega : ¬(idx < 0 ∨ idx ≥ (links.length : Int))), if_pos hline]
  · intro hdest hhash hno hline
    simp only [followLink]
    rw [if_neg hdest, if_pos hhash]
    have hfind : findAnchorHeading headings (goTrimSpace l.target).tail = none := by
      apply List.find?_eq_none.mpr
      intro h hmem
      have hdis := hno h hmem
      simp only [Bool.and_eq_true, Bool.or_eq_true, beq_iff_eq, decide_eq_true_eq,
        not_or] at hdis ⊢
      intro hcon
      exact absurd (or_assoc.mp hcon.1) (by tauto)
    rw [hfind]
    rw [if_neg (by omega : ¬ 0 ≤ l.renderedLine)]

/-- Witness for C7: a one-link list whose link is unresolved, and an anchor
target matching no heading. -/
theorem unresolved_positions_quiet_witness :
    (scrollToLink [⟨"a".toList, "#x".toList, -1⟩] 0 10 4 2 = 2) ∧
    (followLink [introH] 10 4 2 ⟨"a".toList, "#zzz".toList, -1⟩ = (2, [])) :=
  ⟨(unresolved_positions_quiet [⟨"a".toList, "#x".toList, -1⟩] 0 10 4 2 [introH]
      ⟨"a".toList, "#zzz".toList, -1⟩).1 (by decide) (by decide) (by decide),
   (unresolved_positions_quiet [⟨"a".toList, "#x".toList, -1⟩] 0 10 4 2 [introH]
      ⟨"a".toList, "#zzz".toList, -1⟩).2 (by decide) (by decide) (by decide) (by decide)⟩

/-- A kept rune, after the space-to-hyphen substitution, is never a Go
whitespace character (kept runes are `a..z`, `0..9`, space, hyphen, and the
space is substituted away). -/
theorem keep_no_space (c : Char) (hk : keepRune c = true) :
    goIsSpace (if c == ' ' then '-' else c) = false := by
  by_cases hc : (c == ' ') = true
  · rw [if_pos hc]; decide
  · rw [if_neg (by simpa using hc)]
    have h32 : c.toNat ≠ 32 := by
      intro hn
      apply hc
      have hce : c = ' ' := Char.ext (UInt32.ext (by simpa [Char.toNat] using hn))
      simp [hce]
    simp only [keepRune, Bool.or_eq_true, Bool.and_eq_true, decide_eq_true_eq,
      beq_iff_eq] at hk
    rw [Bool.eq_false_iff]
    intro hbad
    simp only [goIsSpace, Bool.or_eq_true, Bool.and_eq_true, decide_eq_true_eq,
      beq_iff_eq] at hbad
    rcases hk with ((⟨h1, h2⟩ | ⟨h1, h2⟩) | h1) | h1
    · have hn1 : 97 ≤ c.toNat := h1
      have hn2 : c.toNat ≤ 122 := h2
      omega
    · have hn1 : 48 ≤ c.toNat := h1
      have hn2 : c.toNat ≤ 57 := h2
      omega
    · exact absurd (by simp [h1]) hc
    · have : c.toNat = 45 := by rw [h1]; decide
      omega

/-- `strings.Fields` of a whitespace-free string is the one-field split. -/
theorem fieldsAux_no_space :
    ∀ (l acc : List Char), (∀ c ∈ l, goIsSpace c = false) →
      fieldsAux acc l = if acc.reverse ++ l = [] then [] else [acc.reverse ++ l] := by
  intro l
  induction l with
  | nil =>
    intro acc _
    simp only [fieldsAux, List.append_nil]
    by_cases ha : acc = []
    · subst ha; simp
    · simp [ha]
  | cons c r ih =>
    intro acc h
    have hc : goIsSpace c = false := h c (by simp)
    simp only [fieldsAux, hc, Bool.false_eq_true, if_false]
    rw [ih (c :: acc) fun x hx => h x (by simp [hx])]
    have : (c :: acc).reverse ++ r = acc.reverse ++ c :: r := by simp
    rw [this]

/-- `goFields` of a whitespace-free string. -/
theorem goFields_no_space (l : List Char) (h : ∀ c ∈ l, goIsSpace c = false) :
    goFields l = if l = [] then [] else [l] := by
  have := fieldsAux_no_space l [] h
  simpa [goFields] using this

/-- `slugify` in closed form: the `Fields`/`Join` steps are the identity
because the filtered, hyphen-substituted string contains no whitespace, so
`slugify` is exactly lowercase, filter, space-to-hyphen, trim hyphens. -/
theorem slugify_eq (l : List Char) :
    slugify l = goTrimH (replaceSpaceHyphen ((l.map lowerChar).filter keepRune)) := by
  unfold slugify
  have hns : ∀ c ∈ replaceSpaceHyphen ((l.map lowerChar).filter keepRune),
      goIsSpace c = false := by
    intro c hc
    unfold replaceSpaceHyphen at hc
    obtain ⟨c0, hc0, rfl⟩ := List.mem_map.mp hc
    exact keep_no_space c0 (List.mem_filter.mp hc0).2
  rw [goFields_no_space _ hns]
  by_cases hxe : replaceSpaceHyphen ((l.map lowerChar).filter keepRune) = []
  · rw [if_pos hxe, hxe]
    rfl
  · rw [if_neg hxe]
    rfl

/-- A nonempty `dropWhile` keeps the last element. -/
theorem dropWhile_getLast? {p : Char → Bool} :
    ∀ {x : List Char}, x.dropWhile p ≠ [] → (x.dropWhile p).getLast? = x.getLast? := by
  intro x
  induction x with
  | nil => intro h; simp at h
  | cons c r ih =>
    intro h
    by_cases hc : p c
    · rw [List.dropWhile_cons_of_pos hc] at h ⊢
      rw [ih h]
      rcases r with - | ⟨v, s⟩
      · simp at h
      · rw [List.getLast?_cons_cons]
    · rw [List.dropWhile_cons_of_neg hc]

/-- The hyphen trim never leaves a hyphen at either end. -/
theorem goTrimH_ends (l : List Char) :
    (goTrimH l).head? ≠ some '-' ∧ (goTrimH l).getLast? ≠ some '-' := by
  unfold goTrimH
  constructor
  · rw [List.head?_reverse]
    by_cases hbe : ((l.dropWhile (· == '-')).reverse.dropWhile (· == '-')) = []
    · rw [hbe]; simp
    · rw [dropWhile_getLast? hbe, List.getLast?_reverse]
      rcases ha : l.dropWhile (· == '-') with - | ⟨a, s⟩
      · simp
      · have hx := dropWhile_head_false ha
        simp only [List.head?_cons, ne_eq, Option.some.injEq]
        intro hcon
        subst hcon
        simp at hx
  · rw [List.getLast?_reverse]
    rcases hb : ((l.dropWhile (· == '-')).reverse.dropWhile (· == '-')) with - | ⟨c, r⟩
    · simp
    · have hx := dropWhile_head_false hb
      simp only [List.head?_cons, ne_eq, Option.some.injEq]
      intro hcon
      subst hcon
      simp at hx

/-- C4 counterexample: `slugify "  A---B  "` is `"a---b"`, not `"a-b"` —
hyphen runs are not collapsed — and an interior run of two spaces becomes
two hyphens, not one. -/
theorem slugify_counterexample :
    slugify "  A---B  ".toList = "a---b".toList ∧
    slugify "  A---B  ".toList ≠ "a-b".toList ∧
    slugify ['a', ' ', ' ', 'b'] = ['a', '-', '-', 'b'] := by decide

/-- C4 (amended): for every input, the slug is obtained by lowercasing,
keeping only letters, digits, spaces and hyphens, replacing each space by
one hyphen (runs of spaces become equally long runs of hyphens; hyphen runs
are not collapsed; whitespace other than the space character is dropped by
the filter), and trimming leading/trailing hyphens; the result never starts
or ends with a hyphen; `slugify "Getting Started!" = "getting-started"` and
`slugify "  A---B  " = "a---b"`. -/
theorem slugify_amended :
    (∀ l : List Char,
       slugify l = goTrimH (replaceSpaceHyphen ((l.map lowerChar).filter keepRune))) ∧
    (∀ l : List Char, (slugify l).head? ≠ some '-' ∧ (slugify l).getLast? ≠ some '-') ∧
    slugify "Getting Started!".toList = "getting-started".toList ∧
    slugify "  A---B  ".toList = "a---b".toList :=
  ⟨slugify_eq,
   fun l => by rw [slugify_eq]; exact goTrimH_ends _,
   by decide, by decide⟩

/-- Witness for C4 (amended) at a concrete input with hyphens at both ends. -/
theorem slugify_amended_witness :
    (slugify "-x-".toList).head? ≠ some '-' ∧
    (slugify "-x-".toList).getLast? ≠ some '-' :=
  slugify_amended.2.1 ("-x-".toList)

/-- `firstIdx?` finds a position where the needle is a prefix, and no
earlier position works. -/
theorem firstIdx?_spec {hay nd : List Char} {p : Nat}
    (h : firstIdx? hay nd = some p) :
    nd.isPrefixOf (hay.drop p) = true ∧
    ∀ q, q < p → nd.isPrefixOf (hay.drop q) = false := by
  induction hay generalizing p with
  | nil =>
    unfold firstIdx? at h
    split at h
    · next hpre =>
      cases h
      exact ⟨hpre, by omega⟩
    · exact absurd h (by simp)
  | cons c r ih =>
    unfold firstIdx? at h
    by_cases hpre : nd.isPrefixOf (c :: r)
    · rw [if_pos hpre] at h
      cases h
      exact ⟨by simpa using hpre, by omega⟩
    · rw [if_neg hpre] at h
      change (firstIdx? r nd).map (· + 1) = some p at h
      rcases ho : firstIdx? r nd with - | q0
      · rw [ho] at h; simp at h
      · rw [ho] at h
        simp only [Option.map_some', Option.some.injEq] at h
        subst h
        obtain ⟨hp1, hp2⟩ := ih ho
        refine ⟨by simpa using hp1, ?_⟩
        intro q hq
        cases q with
        | zero =>
          simp only [List.drop_zero]
          exact Bool.eq_false_iff.mpr hpre
        | succ q2 =>
          rw [List.drop_succ_cons]
          exact hp2 q2 (by omega)

/-- If the needle occurs, `firstIdx?` succeeds. -/
theorem firstIdx?_occ {nd : List Char} :
    ∀ (pre : List Char) {hay : List Char} (post : List Char),
      hay = pre ++ nd ++ post → ∃ p, firstIdx? hay nd = some p := by
  intro pre
  induction pre with
  | nil =>
    intro hay post heq
    refine ⟨0, ?_⟩
    unfold firstIdx?
    rw [if_pos ?_]
    subst heq
    simp only [List.nil_append]
    exact List.isPrefixOf_iff_prefix.mpr (List.prefix_append nd post)
  | cons c pre2 ih =>
    intro hay post heq
    subst heq
    unfold firstIdx?
    by_cases hpre : nd.isPrefixOf ((c :: pre2) ++ nd ++ post)
    · exact ⟨0, by rw [if_pos hpre]⟩
    · rw [if_neg hpre]
      obtain ⟨p, hp⟩ := ih post rfl
      refine ⟨p + 1, ?_⟩
      show (firstIdx? (pre2 ++ nd ++ post) nd).map (· + 1) = some (p + 1)
      rw [hp]
      rfl

/-- C5: the Position Resolver rule.  `indexLineOf` is `-1` exactly for an
empty or absent needle and otherwise counts the newlines before the first
occurrence (the decomposition with the shortest prefix); and `buildIndexes`
uses the raw display text as the needle for headings, the display text for
anchor-style links, and the target for all other links. -/
theorem position_resolver :
    (∀ hay : List Char, indexLineOf hay [] = -1) ∧
    (∀ hay nd : List Char, nd ≠ [] →
       (∀ pre post : List Char, hay ≠ pre ++ nd ++ post) →
       indexLineOf hay nd = -1) ∧
    (∀ hay nd pre post : List Char, nd ≠ [] → hay = pre ++ nd ++ post →
       (∀ pre2 post2 : List Char, hay = pre2 ++ nd ++ post2 →
          pre.length ≤ pre2.length) →
       indexLineOf hay nd = (countNL pre : Int)) ∧
    (∀ raw plain : List Char, ∀ l ∈ buildLinks raw plain,
       l.renderedLine =
         indexLineOf plain (if l.target.head? = some '#' then l.text else l.target)) ∧
    (∀ raw plain : List Char, ∀ h ∈ buildHeadings raw plain,
       h.renderedLine = indexLineOf plain h.text) := by
  refine ⟨fun hay => by simp [indexLineOf], ?_, ?_, ?_, ?_⟩
  · intro hay nd hnd hno
    unfold indexLineOf
    rw [if_neg hnd]
    rcases ho : firstIdx? hay nd with - | p
    · rfl
    · obtain ⟨hp1, -⟩ := firstIdx?_spec ho
      obtain ⟨t, ht⟩ := List.isPrefixOf_iff_prefix.mp hp1
      have hdecomp : hay = hay.take p ++ nd ++ t := by
        rw [List.append_assoc, ht, List.take_append_drop]
      exact absurd hdecomp (hno (hay.take p) t)
  · intro hay nd pre post hnd heq hmin
    obtain ⟨p, hp⟩ := firstIdx?_occ pre post heq
    obtain ⟨hp1, hp2⟩ := firstIdx?_spec hp
    have hple : p ≤ pre.length := by
      by_contra hgt
      have hpfx : nd.isPrefixOf (hay.drop pre.length) = true := by
        subst heq
        rw [List.append_assoc, List.drop_left]
        exact List.isPrefixOf_iff_prefix.mpr (List.prefix_append nd post)
      have := hp2 pre.length (by omega)
      rw [hpfx] at this
      exact absurd this (by simp)
    have hplt : p < hay.length := by
      by_contra hge
      have hdrop : hay.drop p = [] := List.drop_eq_nil_of_le (by omega)
      rw [hdrop] at hp1
      have : nd = [] := by
        obtain ⟨t, ht⟩ := List.isPrefixOf_iff_prefix.mp hp1
        cases nd with
        | nil => rfl
        | cons a b => simp at ht
      exact hnd this
    have hgep : pre.length ≤ p := by
      obtain ⟨t, ht⟩ := List.isPrefixOf_iff_prefix.mp hp1
      have hdecomp : hay = hay.take p ++ nd ++ t := by
        rw [List.append_assoc, ht, List.take_append_drop]
      have := hmin (hay.take p) t hdecomp
      rwa [List.length_take, min_eq_left (by omega)] at this
    have hpeq : p = pre.length := by omega
    unfold indexLineOf
    rw [if_neg hnd, hp]
    show (countNL (hay.take p) : Int) = (countNL pre : Int)
    subst heq
    rw [hpeq, List.append_assoc, List.take_left]
  · intro raw plain l hl
    obtain ⟨td, -, rfl⟩ := List.mem_map.mp hl
    rfl
  · intro raw plain h hh
    obtain ⟨g, -, hmem⟩ := List.mem_flatMap.mp hh
    by_cases ht : goTrimSpace g = []
    · rw [if_pos ht] at hmem
      simp at hmem
    · rw [if_neg ht] at hmem
      simp only [List.mem_singleton] at hmem
      subst hmem
      rfl

/-- Witness for C5: the needle rule applied to the one link of a concrete
document (`[a](#b)` uses the display text `a` as its needle, resolved on
line 1 of the plain text). -/
theorem position_resolver_witness :
    (link.mk "a".toList "#b".toList 1).renderedLine =
      indexLineOf "x\na y".toList
        (if (link.mk "a".toList "#b".toList 1).target.head? = some '#'
         then (link.mk "a".toList "#b".toList 1).text
         else (link.mk "a".toList "#b".toList 1).target) :=
  position_resolver.2.2.2.1 "[a](#b)".toList "x\na y".toList
    (link.mk "a".toList "#b".toList 1) (by decide)

/-- The overlay loop keeps the bar's length. -/
theorem overlayFrom_length : ∀ (bs ls : List Char), (overlayFrom bs ls).length = bs.length := by
  intro bs
  induction bs with
  | nil => intro ls; cases ls <;> rfl
  | cons b bs ih =>
    intro ls
    cases ls with
    | nil => rfl
    | cons l ls2 => simp [overlayFrom, ih ls2]

/-- When the label fits, the overlay writes it out in full. -/
theorem overlayFrom_take : ∀ (ls bs : List Char), ls.length ≤ bs.length →
    (overlayFrom bs ls).take ls.length = ls := by
  intro ls
  induction ls with
  | nil => intro bs _; rfl
  | cons l ls2 ih =>
    intro bs h
    cases bs with
    | nil => simp at h
    | cons b bs2 =>
      simp only [overlayFrom, List.length_cons, List.take_succ_cons]
      rw [ih bs2 (by simpa using h)]

/-- Overlay characters come from the bar or from the label. -/
theorem mem_overlayFrom : ∀ (bs ls : List Char) (c : Char),
    c ∈ overlayFrom bs ls → c ∈ bs ∨ c ∈ ls := by
  intro bs
  induction bs with
  | nil => intro ls c h; cases ls <;> simp [overlayFrom] at h
  | cons b bs2 ih =>
    intro ls c h
    cases ls with
    | nil => exact Or.inl h
    | cons l ls2 =>
      simp only [overlayFrom, List.mem_cons] at h
      rcases h with rfl | h
      · exact Or.inr (by simp)
      · rcases ih ls2 c h with h | h
        · exact Or.inl (by simp [h])
        · exact Or.inr (by simp [h])

/-- Every character of the decimal renderer is a digit. -/
theorem mem_natReprAux : ∀ (fuel n : Nat) (c : Char),
    c ∈ natReprAux fuel n → ∃ d, d < 10 ∧ c = digitChar d := by
  intro fuel
  induction fuel with
  | zero => intro n c h; simp [natReprAux] at h
  | succ f ih =>
    intro n c h
    unfold natReprAux at h
    split at h
    · next hn =>
      simp only [List.mem_singleton] at h
      exact ⟨n, hn, h⟩
    · next hn =>
      rcases List.mem_append.mp h with h2 | h2
      · exact ih _ c h2
      · simp only [List.mem_singleton] at h2
        exact ⟨n % 10, Nat.mod_lt _ (by omega), h2⟩

/-- Every character of `%d` output is a digit or a minus sign. -/
theorem mem_intRepr (i : Int) (c : Char) (h : c ∈ intRepr i) :
    c = '-' ∨ ∃ d, d < 10 ∧ c = digitChar d := by
  unfold intRepr at h
  split at h
  · rcases List.mem_cons.mp h with rfl | h2
    · exact Or.inl rfl
    · exact Or.inr (mem_natReprAux _ _ c h2)
  · exact Or.inr (mem_natReprAux _ _ c h)

/-- The filled block character never occurs in a decimal rendering. -/
theorem block_not_mem_intRepr (i : Int) : '█' ∉ intRepr i := by
  intro hmem
  rcases mem_intRepr i _ hmem with he | ⟨d, hd, he⟩
  · exact absurd he (by decide)
  · interval_cases d <;> exact absurd he (by decide)

/-- The filled block character never occurs in a footer label. -/
theorem block_not_mem_labelOf (T H off : Int) : '█' ∉ labelOf T H off := by
  intro h
  unfold labelOf at h
  rcases List.mem_append.mp h with h1 | h1
  · rcases List.mem_append.mp h1 with h2 | h2
    · rcases List.mem_append.mp h2 with h3 | h3
      · rcases List.mem_append.mp h3 with h4 | h4
        · exact absurd h4 (by decide)
        · exact block_not_mem_intRepr _ h4
      · exact absurd h3 (by decide)
    · exact block_not_mem_intRepr _ h2
  · exact absurd h1 (by decide)

/-- The ratio of a top-of-document viewport is exactly zero. -/
theorem ratioQ_zero (T H : Int) : ratioQ T H 0 = 0 := by
  unfold ratioQ
  norm_num

/-- The footer bar is always exactly as wide as the terminal. -/
theorem drawProgressBar_length (w : Nat) (r : ℚ) (label : List Char) :
    (drawProgressBar w r label).length = w := by
  unfold drawProgressBar
  split_ifs with h1 h2
  · simp
  · have hle : (if Int.floor ((w : ℚ) * r) < 0 then 0
        else if Int.floor ((w : ℚ) * r) > (w : Int) then (w : Int)
        else Int.floor ((w : ℚ) * r)).toNat ≤ w := by
      split_ifs <;> omega
    simp only [List.length_append, List.length_take, List.length_drop,
      overlayFrom_length, List.length_replicate]
    omega
  · have hle : (if Int.floor ((w : ℚ) * r) < 0 then 0
        else if Int.floor ((w : ℚ) * r) > (w : Int) then (w : Int)
        else Int.floor ((w : ℚ) * r)).toNat ≤ w := by
      split_ifs <;> omega
    simp only [List.length_append, List.length_replicate]
    omega

/-- For a viewport at the top of the document the bar holds no filled block:
the fill count is zero and the label contains only spaces, slashes and
digits. -/
theorem footerBar_no_block (T H : Int) (w : Nat) (hw : 3 ≤ w) :
    '█' ∉ footerBar T H 0 w := by
  intro hmem
  unfold footerBar drawProgressBar at hmem
  rw [if_neg (by omega : ¬ w < 3), ratioQ_zero] at hmem
  simp only [mul_zero, Int.floor_zero, lt_irrefl, if_false] at hmem
  rw [if_neg (by omega : ¬ ((0 : Int) > (w : Int)))] at hmem
  simp only [Int.toNat_zero, List.replicate_zero, List.nil_append, Nat.sub_zero] at hmem
  split_ifs at hmem
  · rcases List.mem_append.mp hmem with h | h
    · exact absurd (List.eq_of_mem_replicate (List.mem_of_mem_take h)) (by decide)
    · rcases mem_overlayFrom _ _ _ h with h | h
      · exact absurd (List.eq_of_mem_replicate (List.mem_of_mem_drop h)) (by decide)
      · exact block_not_mem_labelOf T H 0 h
  · exact absurd (List.eq_of_mem_replicate hmem) (by decide)

/-- Dropping exactly the left part of an append. -/
theorem drop_append_length {l1 l2 : List Char} {n : Nat} (h : l1.length = n) :
    (l1 ++ l2).drop n = l2 := by
  subst h
  exact List.drop_left l1 l2

/-- The label really is written centered into the bar. -/
theorem drawProgressBar_label (w : Nat) (r : ℚ) (label : List Char)
    (hw : 3 ≤ w) (h0 : 0 < label.length) (h1 : label.length < w) :
    ((drawProgressBar w r label).drop ((w - label.length) / 2)).take label.length
      = label := by
  unfold drawProgressBar
  rw [if_neg (by omega : ¬ w < 3), if_pos ⟨h0, h1⟩]
  have hle : (if Int.floor ((w : ℚ) * r) < 0 then 0
      else if Int.floor ((w : ℚ) * r) > (w : Int) then (w : Int)
      else Int.floor ((w : ℚ) * r)).toNat ≤ w := by
    split_ifs <;> omega
  have hbarlen : (List.replicate (if Int.floor ((w : ℚ) * r) < 0 then 0
      else if Int.floor ((w : ℚ) * r) > (w : Int) then (w : Int)
      else Int.floor ((w : ℚ) * r)).toNat '█' ++
      List.replicate (w - (if Int.floor ((w : ℚ) * r) < 0 then 0
      else if Int.floor ((w : ℚ) * r) > (w : Int) then (w : Int)
      else Int.floor ((w : ℚ) * r)).toNat) '░').length = w := by
    simp only [List.length_append, List.length_replicate]
    omega
  have htk : ((List.replicate (if Int.floor ((w : ℚ) * r) < 0 then 0
      else if Int.floor ((w : ℚ) * r) > (w : Int) then (w : Int)
      else Int.floor ((w : ℚ) * r)).toNat '█' ++
      List.replicate (w - (if Int.floor ((w : ℚ) * r) < 0 then 0
      else if Int.floor ((w : ℚ) * r) > (w : Int) then (w : Int)
      else Int.floor ((w : ℚ) * r)).toNat) '░').take ((w - label.length) / 2)).length
      = (w - label.length) / 2 := by
    rw [List.length_take, hbarlen]
    omega
  rw [drop_append_length htk]
  refine overlayFrom_take label _ ?_
  rw [List.length_drop, hbarlen]
  omega

/-- C9: the footer is a full-width bar (exactly `width` characters) whose
ratio is `offset / max(1, totalLines - height)` with the denominator
defaulting to 1 whenever `totalLines ≤ height`; its centered label is
`" current / total "` with `current = min(totalLines, offset + height)` and
`total = totalLines` (for the nonempty documents the renderer produces);
and at offset 0 the ratio is exactly 0 and the bar shows no filled block —
the computation is total, so no division error can occur. -/
theorem footer_progress_bar (T H off : Int) (w : Nat)
    (hT : 1 ≤ T) (hH : 1 ≤ H) (hoff : 0 ≤ off) (hw : 3 ≤ w)
    (hlab : (labelOf T H off).length < w) :
    (T ≤ H → (max 1 (T - H) : Int) = 1) ∧
    currentLine T H off = min T (off + H) ∧
    totalDisp T = T ∧
    (footerBar T H off w).length = w ∧
    ((footerBar T H off w).drop ((w - (labelOf T H off).length) / 2)).take
      (labelOf T H off).length = labelOf T H off ∧
    (off = 0 → ratioQ T H off = 0 ∧ '█' ∉ footerBar T H off w) := by
  refine ⟨fun hTH => by omega, ?_, by unfold totalDisp; omega,
    drawProgressBar_length w _ _, ?_, ?_⟩
  · simp only [currentLine]
    split_ifs <;> omega
  · exact drawProgressBar_label w _ _ hw (by simp [labelOf]) hlab
  · intro h0
    subst h0
    exact ⟨ratioQ_zero T H, footerBar_no_block T H w hw⟩

/-- Witness for C9: a 10-line document in a 24-line viewport at offset 0
with an 40-column bar. -/
theorem footer_progress_bar_witness :
    ((1 : Int) ≤ 10 ∧ (1 : Int) ≤ 24 ∧ (0 : Int) ≤ 0 ∧ 3 ≤ 40 ∧
      (labelOf 10 24 0).length < 40) ∧
    '█' ∉ footerBar 10 24 0 40 :=
  ⟨⟨by decide, by decide, by decide, by decide, by decide⟩,
   ((footer_progress_bar 10 24 0 40 (by decide) (by decide) (by decide) (by decide)
      (by decide)).2.2.2.2.2 rfl).2⟩

/-- The remainder of a line after its leading whitespace and `#` run. -/
def markerRest (L : List Char) : List Char :=
  (L.dropWhile isWS).dropWhile (· == '#')

/-- The captured group a heading-marker line contributes: its remainder
after the whitespace that follows the `#` run. -/
def groupOf (L : List Char) : List Char := (markerRest L).dropWhile isWS

/-- A proper heading-marker line: at most 3 leading whitespace characters,
then 1–6 `#`, then at least one whitespace character, with a non-blank
trimmed remainder. -/
def IsMarkerLine (L : List Char) : Prop :=
  (L.takeWhile isWS).length ≤ 3 ∧
  1 ≤ ((L.dropWhile isWS).takeWhile (· == '#')).length ∧
  ((L.dropWhile isWS).takeWhile (· == '#')).length ≤ 6 ∧
  1 ≤ ((markerRest L).takeWhile isWS).length ∧
  goTrimSpace (markerRest L) ≠ []

instance (L : List Char) : Decidable (IsMarkerLine L) := by
  unfold IsMarkerLine; infer_instance

/-- A line is safe when every marker-looking prefix (≤ 3 leading whitespace,
1–6 `#`, then end of line or whitespace) belongs to a proper marker: it
rules out the cross-line captures of the multiline regexp (blank-remainder
markers and pure-`#` lines, whose `\s+` would swallow the newline). -/
def SafeLine (L : List Char) : Prop :=
  ((L.takeWhile isWS).length ≤ 3 ∧
   1 ≤ ((L.dropWhile isWS).takeWhile (· == '#')).length ∧
   ((L.dropWhile isWS).takeWhile (· == '#')).length ≤ 6 ∧
   (markerRest L = [] ∨ 1 ≤ ((markerRest L).takeWhile isWS).length)) →
  IsMarkerLine L

instance (L : List Char) : Decidable (SafeLine L) := by
  unfold SafeLine; infer_instance

/-- The groups a single line contributes to the scan. -/
def lineGroups (L : List Char) : List (List Char) :=
  if IsMarkerLine L then [groupOf L] else []

/-- Reassemble a document from its newline-free lines. -/
def joinLines : List (List Char) → List Char
  | [] => []
  | [L] => L
  | L :: ls => L ++ '\n' :: joinLines ls

theorem joinLines_pair (L M : List Char) (ls : List (List Char)) :
    joinLines (L :: M :: ls) = L ++ '\n' :: joinLines (M :: ls) := rfl

/-- Regexp whitespace is Go whitespace. -/
theorem isWS_goIsSpace {c : Char} (h : isWS c = true) : goIsSpace c = true := by
  have hn : c.toNat = 32 ∨ c.toNat = 9 ∨ c.toNat = 10 ∨ c.toNat = 13 ∨ c.toNat = 12 := by
    simp only [isWS, Bool.or_eq_true, beq_iff_eq] at h
    rcases h with ((((h | h) | h) | h) | h)
    · left; rw [h]; rfl
    · right; left; rw [h]; rfl
    · right; right; left; rw [h]; rfl
    · right; right; right; left; rw [h]; rfl
    · right; right; right; right; exact h
  simp only [goIsSpace, Bool.or_eq_true, Bool.and_eq_true, decide_eq_true_eq, beq_iff_eq]
  omega

/-- A non-blank trim forces a non-whitespace character. -/
theorem exists_nonspace_of_trim {l : List Char} (h : goTrimSpace l ≠ []) :
    ∃ c ∈ l, goIsSpace c = false := by
  by_contra hno
  push_neg at hno
  apply h
  unfold goTrimSpace
  have h1 : l.dropWhile goIsSpace = [] := by
    apply List.dropWhile_eq_nil_iff.mpr
    intro x hx
    have := hno x hx
    simpa using this
  rw [h1]
  rfl

/-- A witnessed predicate failure keeps `dropWhile` from emptying the list. -/
theorem dropWhile_ne_nil_of_exists {p : Char → Bool} {l : List Char}
    (h : ∃ c ∈ l, p c = false) : l.dropWhile p ≠ [] := by
  intro he
  obtain ⟨c, hc, hpc⟩ := h
  have := List.dropWhile_eq_nil_iff.mp he c hc
  rw [hpc] at this
  exact absurd this (by simp)

/-- Characters of the captured group come from the line itself. -/
theorem mem_of_mem_groupOf {L : List Char} {c : Char} (h : c ∈ groupOf L) :
    c ∈ L := by
  unfold groupOf markerRest at h
  exact ((List.dropWhile_sublist _).trans
    ((List.dropWhile_sublist _).trans (List.dropWhile_sublist _))).mem h

/-- Dropping a weaker whitespace class first changes nothing. -/
theorem dropWhile_go_isWS (l : List Char) :
    (l.dropWhile isWS).dropWhile goIsSpace = l.dropWhile goIsSpace := by
  induction l with
  | nil => rfl
  | cons c r ih =>
    by_cases hc : isWS c
    · rw [List.dropWhile_cons_of_pos hc, ih,
        List.dropWhile_cons_of_pos (isWS_goIsSpace hc)]
    · rw [List.dropWhile_cons_of_neg hc]

/-- Trimming the group equals trimming the whole remainder. -/
theorem trim_groupOf (L : List Char) :
    goTrimSpace (groupOf L) = goTrimSpace (markerRest L) := by
  unfold goTrimSpace groupOf
  rw [dropWhile_go_isWS]

/-- On a proper marker line followed by nothing or a newline, the regexp
matches exactly the line and captures its group. -/
theorem matchHeadingAt_marker {L : List Char} (hnl : '\n' ∉ L)
    (hm : IsMarkerLine L) (t : List Char) (ht : t = [] ∨ t.head? = some '\n') :
    matchHeadingAt (L ++ t) = some (groupOf L, t) := by
  obtain ⟨h1, h2, h3, h4, h5⟩ := hm
  have hL1 : L.dropWhile isWS ≠ [] := by
    intro he
    rw [he] at h2
    simp at h2
  have hRest : (L.dropWhile isWS).dropWhile (· == '#') ≠ [] := by
    intro he
    unfold markerRest at h4
    rw [he] at h4
    simp at h4
  have hGrp : (markerRest L).dropWhile isWS ≠ [] := by
    apply dropWhile_ne_nil_of_exists
    obtain ⟨c, hc, hcs⟩ := exists_nonspace_of_trim h5
    refine ⟨c, hc, ?_⟩
    by_cases hws : isWS c
    · rw [isWS_goIsSpace hws] at hcs
      exact absurd hcs (by simp)
    · simpa using hws
  have hgnl : ∀ c ∈ groupOf L, (decide (c ≠ '\n')) = true := by
    intro c hc
    have := mem_of_mem_groupOf hc
    simp only [decide_eq_true_eq]
    intro he
    subst he
    exact hnl this
  rw [matchHeadingAt_def]
  rw [takeWhile_append_stop t hL1, dropWhile_append_stop t hL1,
    takeWhile_append_stop t hRest, dropWhile_append_stop t hRest]
  have e5 : (markerRest L ++ t).takeWhile isWS = (markerRest L).takeWhile isWS :=
    takeWhile_append_stop t hGrp
  have e6 : (markerRest L ++ t).dropWhile isWS = groupOf L ++ t :=
    dropWhile_append_stop t hGrp
  unfold markerRest at e5 e6
  rw [e5, e6]
  have e7 : (groupOf L ++ t).takeWhile (· ≠ '\n') = groupOf L ++ t.takeWhile (· ≠ '\n') :=
    takeWhile_append_all t hgnl
  have e8 : (groupOf L ++ t).dropWhile (· ≠ '\n') = t.dropWhile (· ≠ '\n') :=
    dropWhile_append_all t hgnl
  rw [e7, e8]
  have e9 : t.takeWhile (· ≠ '\n') = [] := by
    rcases ht with rfl | hh
    · rfl
    · cases t with
      | nil => rfl
      | cons a t2 =>
        simp only [List.head?_cons, Option.some.injEq] at hh
        subst hh
        rw [List.takeWhile_cons_of_neg (by simp)]
  have e10 : t.dropWhile (· ≠ '\n') = t := by
    rcases ht with rfl | hh
    · rfl
    · cases t with
      | nil => rfl
      | cons a t2 =>
        simp only [List.head?_cons, Option.some.injEq] at hh
        subst hh
        rw [List.dropWhile_cons_of_neg (by simp)]
  rw [e9, e10, List.append_nil]
  rw [if_pos ⟨h1, h2, h3, by unfold markerRest at h4; exact h4⟩]

/-- On a safe line that is not a proper marker but has a non-whitespace
character, the regexp cannot match at the line start, whatever follows. -/
theorem matchHeadingAt_nonmarker {L : List Char} (hnw : L.dropWhile isWS ≠ [])
    (hsafe : SafeLine L) (hnm : ¬ IsMarkerLine L) (t : List Char) :
    matchHeadingAt (L ++ t) = none := by
  rw [matchHeadingAt_def]
  rw [takeWhile_append_stop t hnw, dropWhile_append_stop t hnw]
  by_cases h1 : (L.takeWhile isWS).length ≤ 3
  · by_cases hr0 : ((L.dropWhile isWS).takeWhile (· == '#')).length = 0
    · -- no # after the leading whitespace
      rcases hL1 : L.dropWhile isWS with - | ⟨a, L1b⟩
      · exact absurd hL1 hnw
      · have ha : (a == '#') = false := by
          by_contra hcon
          rw [hL1, List.takeWhile_cons, (by simpa using hcon : (a == '#') = true)] at hr0
          simp at hr0
        rw [List.cons_append, List.takeWhile_cons_of_neg (by simp [ha])]
        rw [if_neg]
        intro hc
        simp at hc
    · by_cases hrest : markerRest L = []
      · -- the # run reaches the end of the line
        have hall : ∀ c ∈ L.dropWhile isWS, (c == '#') = true := by
          have := List.dropWhile_eq_nil_iff.mp (by unfold markerRest at hrest; exact hrest)
          exact this
        by_cases hr6 : ((L.dropWhile isWS).takeWhile (· == '#')).length ≤ 6
        · exact absurd (hsafe ⟨h1, by omega, hr6, Or.inl hrest⟩) hnm
        · rw [takeWhile_append_all t hall]
          rw [if_neg]
          intro hc
          obtain ⟨-, -, hc3, -⟩ := hc
          rw [List.takeWhile_eq_self_iff.mpr hall] at hr6
          simp only [List.length_append] at hc3
          have hto : ((L.dropWhile isWS).takeWhile (· == '#')).length ≤
              (L.dropWhile isWS).length := by
            have := length_takeWhile_add_dropWhile (· == '#') (L.dropWhile isWS)
            omega
          omega
      · rw [takeWhile_append_stop t hrest, dropWhile_append_stop t hrest]
        by_cases hr6 : ((L.dropWhile isWS).takeWhile (· == '#')).length ≤ 6
        · by_cases hws : 1 ≤ ((markerRest L).takeWhile isWS).length
          · exact absurd (hsafe ⟨h1, by omega, hr6, Or.inr hws⟩) hnm
          · -- the character after the #s is not whitespace
            rcases hR : markerRest L with - | ⟨b, R2⟩
            · exact absurd hR hrest
            · have hb : isWS b = false := by
                by_contra hcon
                rw [hR, List.takeWhile_cons, (by simpa using hcon : isWS b = true)] at hws
                simp at hws
              unfold markerRest at hR
              rw [hR, List.cons_append, List.takeWhile_cons_of_neg (by simp [hb])]
              rw [if_neg]
              intro hc
              simp at hc
        · rw [if_neg]
          intro hc
          obtain ⟨-, -, hc3, -⟩ := hc
          omega
  · rw [if_neg]
    intro hc
    exact h1 hc.1

/-- A successful match after an all-whitespace line succeeds identically on
the following content alone. -/
theorem matchHeadingAt_allws {L t : List Char} (hall : L.dropWhile isWS = [])
    {x : List Char × List Char}
    (h : matchHeadingAt (L ++ '\n' :: t) = some x) : matchHeadingAt t = some x := by
  have hallmem : ∀ c ∈ L, isWS c = true := List.dropWhile_eq_nil_iff.mp hall
  rw [matchHeadingAt_def] at h ⊢
  rw [takeWhile_append_all _ hallmem, dropWhile_append_all _ hallmem,
    List.takeWhile_cons_of_pos (by decide : isWS '\n' = true),
    List.dropWhile_cons_of_pos (by decide : isWS '\n' = true)] at h
  split at h
  · next hc =>
    obtain ⟨hc1, hc2, hc3, hc4⟩ := hc
    rw [if_pos ?_]
    · exact h
    · refine ⟨?_, hc2, hc3, hc4⟩
      simp only [List.length_append, List.length_cons] at hc1
      omega
  · exact absurd h (by simp)

/-- The heading regexp never matches an empty document. -/
theorem matchHeadingAt_nil : matchHeadingAt ([] : List Char) = none := by
  decide

/-- A line that is entirely whitespace offers no `#` for the regexp. -/
theorem matchHeadingAt_none_of_dropWhile_nil {L : List Char}
    (h : L.dropWhile isWS = []) : matchHeadingAt L = none := by
  rw [matchHeadingAt_def, if_neg]
  intro hc
  rw [h] at hc
  simp at hc

/-- A successful match at line start emits its group and resumes after it. -/
theorem scanH_true_some {s g e : List Char}
    (hm : matchHeadingAt s = some (g, e)) : scanH s true = g :: scanH e false := by
  cases s with
  | nil => rw [matchHeadingAt_nil] at hm; exact absurd hm (by simp)
  | cons c r => exact scanH_cons_true_some hm

/-- Newline equality test evaluates to true. -/
theorem beq_nl_self : ( '\n' == '\n' ) = true := by decide

/-- Scanning a newline-free line from mid-line position reaches the next
line start. -/
theorem scanH_walk (t : List Char) : ∀ {L : List Char}, '\n' ∉ L →
    scanH (L ++ '\n' :: t) false = scanH t true := by
  intro L
  induction L with
  | nil =>
    intro hnl
    rw [List.nil_append, scanH_cons_false, beq_nl_self]
  | cons c L ih =>
    intro hnl
    rw [List.cons_append, scanH_cons_false]
    have hc : (c == '\n') = false := by
      simp only [beq_eq_false_iff_ne, ne_eq]
      intro he
      apply hnl
      rw [he]
      exact List.mem_cons_self _ _
    rw [hc]
    exact ih fun hmem => hnl (List.mem_cons_of_mem c hmem)

/-- Scanning a newline-free tail from mid-line position finds nothing. -/
theorem scanH_walk_end : ∀ {L : List Char}, '\n' ∉ L → scanH L false = [] := by
  intro L
  induction L with
  | nil => intro hnl; rfl
  | cons c L ih =>
    intro hnl
    rw [scanH_cons_false]
    have hc : (c == '\n') = false := by
      simp only [beq_eq_false_iff_ne, ne_eq]
      intro he
      apply hnl
      rw [he]
      exact List.mem_cons_self _ _
    rw [hc]
    exact ih fun hmem => hnl (List.mem_cons_of_mem c hmem)

/-- When the regexp fails at a line start, the scan passes over the line. -/
theorem scanH_line_none {L t : List Char} (hnl : '\n' ∉ L)
    (hm : matchHeadingAt (L ++ '\n' :: t) = none) :
    scanH (L ++ '\n' :: t) true = scanH t true := by
  cases L with
  | nil =>
    rw [List.nil_append] at hm ⊢
    rw [scanH_cons_true_none hm, beq_nl_self]
  | cons c L =>
    rw [List.cons_append] at hm ⊢
    rw [scanH_cons_true_none hm]
    have hc : (c == '\n') = false := by
      simp only [beq_eq_false_iff_ne, ne_eq]
      intro he
      apply hnl
      rw [he]
      exact List.mem_cons_self _ _
    rw [hc]
    exact scanH_walk t fun hmem => hnl (List.mem_cons_of_mem c hmem)

/-- When the regexp fails at the start of the final line, the scan ends
empty. -/
theorem scanH_single_none {L : List Char} (hnl : '\n' ∉ L)
    (hm : matchHeadingAt L = none) : scanH L true = [] := by
  cases L with
  | nil => rfl
  | cons c L =>
    rw [scanH_cons_true_none hm]
    have hc : (c == '\n') = false := by
      simp only [beq_eq_false_iff_ne, ne_eq]
      intro he
      apply hnl
      rw [he]
      exact List.mem_cons_self _ _
    rw [hc]
    exact scanH_walk_end fun hmem => hnl (List.mem_cons_of_mem c hmem)

/-- An all-whitespace line is transparent to the scan: either the match at
its start fails and the scan walks to the next line, or it succeeds by
absorbing the whitespace and newline, matching exactly what the next line
alone would match. -/
theorem scanH_allws {L t : List Char} (hnl : '\n' ∉ L)
    (hall : L.dropWhile isWS = []) :
    scanH (L ++ '\n' :: t) true = scanH t true := by
  cases hm : matchHeadingAt (L ++ '\n' :: t) with
  | some x =>
    obtain ⟨g, e⟩ := x
    have hm2 := matchHeadingAt_allws hall hm
    rw [scanH_true_some hm, scanH_true_some hm2]
  | none => exact scanH_line_none hnl hm

/-- On a document assembled from newline-free safe lines the scan finds, in
order, exactly the group of each proper marker line. -/
theorem scanH_lines : ∀ (ls : List (List Char)),
    (∀ L ∈ ls, '\n' ∉ L ∧ SafeLine L) →
    scanH (joinLines ls) true = ls.flatMap lineGroups := by
  intro ls
  induction ls with
  | nil => intro h; rfl
  | cons L ls ih =>
    intro h
    obtain ⟨hnl, hsafe⟩ := h L (List.mem_cons_self L ls)
    have hih := ih fun M hM => h M (List.mem_cons_of_mem L hM)
    by_cases hm : IsMarkerLine L
    · cases ls with
      | nil =>
        have hmm : matchHeadingAt (L ++ []) = some (groupOf L, []) :=
          matchHeadingAt_marker hnl hm [] (Or.inl rfl)
        rw [List.append_nil] at hmm
        show scanH L true = _
        rw [scanH_true_some hmm]
        simp [lineGroups, if_pos hm, scanH_nil]
      | cons M r =>
        rw [joinLines_pair]
        have hmm : matchHeadingAt (L ++ '\n' :: joinLines (M :: r)) =
            some (groupOf L, '\n' :: joinLines (M :: r)) :=
          matchHeadingAt_marker hnl hm _ (Or.inr rfl)
        rw [scanH_true_some hmm, scanH_cons_false, beq_nl_self, hih]
        simp [lineGroups, if_pos hm]
    · by_cases hws : L.dropWhile isWS = []
      · cases ls with
        | nil =>
          show scanH L true = _
          rw [scanH_single_none hnl (matchHeadingAt_none_of_dropWhile_nil hws)]
          simp [lineGroups, if_neg hm]
        | cons M r =>
          rw [joinLines_pair, scanH_allws hnl hws, hih]
          simp [lineGroups, if_neg hm]
      · cases ls with
        | nil =>
          show scanH L true = _
          have hmn := matchHeadingAt_nonmarker hws hsafe hm []
          rw [List.append_nil] at hmn
          rw [scanH_single_none hnl hmn]
          simp [lineGroups, if_neg hm]
        | cons M r =>
          rw [joinLines_pair,
            scanH_line_none hnl (matchHeadingAt_nonmarker hws hsafe hm _), hih]
          simp [lineGroups, if_neg hm]

/-- Mapping the display text over the headings built from per-line groups
yields the trimmed marker remainders, one per proper marker line. -/
theorem headText_of_groups (plain : List Char) (ls : List (List Char)) :
    (((ls.flatMap lineGroups).flatMap fun g =>
        if goTrimSpace g = [] then ([] : List heading)
        else [{ text := goTrimSpace g, anchor := slugify (goTrimSpace g),
                renderedLine := indexLineOf plain (goTrimSpace g) }]).map heading.text) =
      ls.flatMap (fun L => if IsMarkerLine L then [goTrimSpace (markerRest L)] else []) := by
  induction ls with
  | nil => rfl
  | cons L ls ih =>
    rw [List.flatMap_cons, List.flatMap_append, List.map_append, ih, List.flatMap_cons]
    congr 1
    by_cases hm : IsMarkerLine L
    · rw [if_pos hm]
      have hne : goTrimSpace (markerRest L) ≠ [] := hm.2.2.2.2
      simp [lineGroups, if_pos hm, trim_groupOf, hne]
    · rw [if_neg hm]
      simp [lineGroups, if_neg hm]

/-- C8 counterexample. The claim as stated fails on two documents: in
"\t# Hi" the line begins with a tab, not a space, yet the extractor
produces the heading "Hi", because the regexp class in main.go L54 is `\s`
(any whitespace), not the space character; and in "# \nfoo" the line "# "
has a blank remainder and should produce no heading, yet the extractor
produces the heading "foo": with the multiline flag `\s+` crosses the
newline, so the marker on the first line captures the text of the next
line. -/
theorem heading_extraction_counterexample :
    (buildHeadings ("\t# Hi".toList) ("\t# Hi".toList)).map heading.text =
      ["Hi".toList]
    ∧ (buildHeadings ("# \nfoo".toList) ("# \nfoo".toList)).map heading.text =
      ["foo".toList] := by
  constructor
  · decide
  · decide

/-- C8 (amended). On a document whose lines are newline-free and safe — a
line that looks like a marker up to the whitespace requirement really is a
proper marker line — the extractor produces exactly one heading, in
document order, for each line that after at most 3 leading whitespace
characters (not only spaces: tab, CR, FF too) begins with 1–6 `#`
characters followed by at least one whitespace character and a non-blank
remainder, with display text the trimmed remainder, and no heading for any
other line.  The safety proviso is needed because on unsafe lines the
multiline regexp captures across the newline: a marker line with a blank
remainder, or with 1–6 trailing `#` and nothing after, steals the next
line's text (see the counterexample). -/
theorem heading_extraction_amended (ls : List (List Char)) (plain : List Char)
    (h : ∀ L ∈ ls, '\n' ∉ L ∧ SafeLine L) :
    (buildHeadings (joinLines ls) plain).map heading.text =
      ls.flatMap
        (fun L => if IsMarkerLine L then [goTrimSpace (markerRest L)] else []) := by
  unfold buildHeadings
  rw [scanH_lines ls h]
  exact headText_of_groups plain ls

/-- C8 witness: a concrete three-line safe document in which the first and
third lines are proper markers and the middle one is plain text. -/
theorem heading_extraction_amended_witness :
    (∀ L ∈ [ "# Title".toList, "text".toList, "  ## Sub".toList ],
        '\n' ∉ L ∧ SafeLine L)
    ∧ (buildHeadings
        (joinLines [ "# Title".toList, "text".toList, "  ## Sub".toList ])
        ("x".toList)).map heading.text =
      [ "# Title".toList, "text".toList, "  ## Sub".toList ].flatMap
        (fun L => if IsMarkerLine L then [goTrimSpace (markerRest L)] else []) :=
  ⟨by decide, heading_extraction_amended _ _ (by decide)⟩
